import Mathlib

/-! Dependency resolution of package `api` (`dependency.go`).

A shallow embedding of `dependency.go`: the dependency graph
(`dependencies`, a map from `reflect.Type` to `*dependency`), its builder
(`newDependencies`, `scanDependencies`, `newDependency`, `add`, `vaueOf`, `isType`)
and the materialiser `dependency.init`.

* `reflect.Type` is the inductive `reflect.RType`; `reflect.Value` keeps the dynamic
  type and the address the value points to.
* A `*dependency` is an address into a heap of `dependency` records, so that pointer
  identity and the late assignment `d.Method = newMethod(init)` are explicit.
* The Go map is a finite map with unique keys (`AList`); the order in which `range`
  enumerates it is an arbitrary permutation supplied by a `RangeOrder`.
* Functions of the package that `dependency.go` calls but does not define
  (`isContextType`, `isValidInit`, `ptrOfType`, the pool's `valueOf`) and the facts of
  the Go type system it queries (`Implements`, `MethodByName("Init")`) are the fields
  of `Env`.
* The recursion of `scanDependencies` through `Init` methods is bounded by a fuel
  argument; `none` means the fuel ran out.
-/

namespace reflect

/-- Go types as far as `dependency.go` inspects them (`reflect.Type`). -/
inductive RType where
  | prim (id : Nat)
  | struct (id : Nat) (numField : Nat)
  | iface (id : Nat)
  | slice (elem : RType)
  | ptr (elem : RType)
  | func (id : Nat)
  deriving DecidableEq, Repr

/-- The kinds `reflect.Kind` distinguishes among the types above. -/
inductive Kind where
  | Prim
  | Struct
  | Interface
  | Slice
  | Ptr
  | Func
  deriving DecidableEq, Repr

/-- The method `Type.Kind()`. -/
def RType.Kind : RType → Kind
  | .prim _ => .Prim
  | .struct _ _ => .Struct
  | .iface _ => .Interface
  | .slice _ => .Slice
  | .ptr _ => .Ptr
  | .func _ => .Func

/-- A `reflect.Value`: its dynamic type (`Value.Type()`) and, for a pointer, the
location it points to (`none` for a nil pointer). -/
structure Value where
  typ : RType
  ptr : Option Nat
  deriving DecidableEq, Repr

/-- A `reflect.Method`: `m.Type.In(i)` for `i < m.Type.NumIn()` and the results. -/
structure Method where
  ins : List RType
  outs : List RType
  deriving DecidableEq, Repr

end reflect

namespace api

open reflect

/-- The errors a graph build can end with. -/
inductive Err where
  | InvalidDependencyType (t : RType)
  | InvalidInitializerSignature
  | NoImplementationFound (t : RType)
  | ResourcePoolError (code : Nat)
  deriving DecidableEq, Repr

/-- Modelled from the spec: the record behind `*method`, built by `newMethod`, is not
in `dependency.go`; the spec describes it as the initializer descriptor holding the
accepted method signature. -/
structure method where
  Method : reflect.Method
  deriving DecidableEq, Repr

/-- Modelled from the spec: `newMethod` is not in `dependency.go`; it wraps the
initializer into its descriptor. -/
def newMethod (init : reflect.Method) : method :=
  ⟨init⟩

/-- The struct `dependency`. -/
structure dependency where
  Value : reflect.Value
  Method : Option method
  deriving DecidableEq, Repr

/-- Address of a `dependency` record: a `*dependency`. -/
abbrev Ptr := Nat

/-- The map type `dependencies`, `map[reflect.Type]*dependency`. -/
abbrev dependencies := AList (fun _ : RType => Ptr)

/-- One key/value pair of the map. -/
abbrev Entry := Sigma (fun _ : RType => Ptr)

/-- The order in which a `range` loop over the map looking for type `t` enumerates
the pairs of the map: some permutation of them. Within one build every loop whose
outcome depends on the order runs for a different `t`, since it makes `t` a key. -/
structure RangeOrder where
  enum : RType → List Entry → List Entry
  perm : ∀ t l, (enum t l).Perm l

/-- The enumeration in storage order. -/
def RangeOrder.id : RangeOrder :=
  ⟨fun _ l => l, fun _ l => List.Perm.refl l⟩

/-- The enumeration in reverse storage order. -/
def RangeOrder.rev : RangeOrder :=
  ⟨fun _ l => l.reverse, fun _ l => List.reverse_perm l⟩

/-- What `dependency.go` takes from the rest of the package and from the Go type
system. `ρ` is the state of the resource pool `r`. -/
structure Env (ρ : Type) where
  /-- The method `Type.Implements`: `Implements c t` is `c.Implements(t)`. -/
  Implements : RType → RType → Bool
  /-- The call `Type.MethodByName("Init")`. -/
  MethodByNameInit : RType → Option reflect.Method
  /-- The package function `isContextType`. -/
  isContextType : RType → Bool
  /-- The package function `isValidInit` (`none` is a nil error). -/
  isValidInit : reflect.Method → Option Err
  /-- The package function `ptrOfType`, which `isType` applies to a type that is not an
  interface before comparing it with the type of the stored value, a pointer. -/
  ptrOfType : RType → RType
  /-- The pool method `r.valueOf`, which may change the pool. -/
  valueOf : ρ → RType → Except Err reflect.Value × ρ

/-- Modelled from the spec: `isValidDependencyType` is not in `dependency.go`; a type
is a valid dependency shape iff it is a pointer to a struct, a pointer to a slice of
structs, or an interface; anything else is an `InvalidDependencyType` error. -/
def isValidDependencyType (t : RType) : Option Err :=
  match t with
  | .ptr (.struct _ _) => none
  | .ptr (.slice (.struct _ _)) => none
  | .iface _ => none
  | _ => some (Err.InvalidDependencyType t)

/-- The heap of `dependency` records and the map under construction, with the pool. -/
structure State (ρ : Type) where
  heap : List dependency
  ds : dependencies
  pool : ρ

/-- The method `(d *dependency) isType(t)`. -/
def dependency.isType {ρ : Type} (env : Env ρ) (d : dependency) (t : RType) : Bool :=
  if t.Kind = Kind.Interface then env.Implements d.Value.typ t
  else decide (d.Value.typ = env.ptrOfType t)

/-- The test `d.isType(t)` through a pointer `d`. -/
def isTypeAt {ρ : Type} (env : Env ρ) (heap : List dependency) (t : RType) (e : Entry) : Bool :=
  match heap.get? e.2 with
  | some d => d.isType env t
  | none => false

/-- The method `(ds dependencies) vaueOf(t)`: the pointer found (`none` for
`(nil, false)`) and the map afterwards. -/
def dependencies.vaueOf {ρ : Type} (env : Env ρ) (ord : RangeOrder) (heap : List dependency)
    (ds : dependencies) (t : RType) : Option Ptr × dependencies :=
  match ds.lookup t with
  | some d => (some d, ds)
  | none =>
    match (ord.enum t ds.entries).find? (isTypeAt env heap t) with
    | some e => (some e.2, ds.insert t e.2)
    | none => (none, ds)

/-- The function `newDependency(t, r)`: the new record's address, or the error. -/
def newDependency {ρ : Type} (env : Env ρ) (t : RType) (heap : List dependency) (pool : ρ) :
    Except Err Ptr × List dependency × ρ :=
  match isValidDependencyType t with
  | some err => (.error err, heap, pool)
  | none =>
    match env.valueOf pool t with
    | (.error err, pool1) => (.error err, heap, pool1)
    | (.ok v, pool1) => (.ok heap.length, heap ++ [⟨v, none⟩], pool1)

/-- The method `(ds dependencies) add(d)`. -/
def dependencies.add (heap : List dependency) (ds : dependencies) (d : Ptr) : dependencies :=
  match heap.get? d with
  | some dep => ds.insert dep.Value.typ d
  | none => ds

/-- The assignment `d.Method = newMethod(init)` through the pointer `d`. -/
def setMethod (heap : List dependency) (d : Ptr) (init : reflect.Method) : List dependency :=
  heap.modify (fun dep => { dep with Method := some (newMethod init) }) d

/-- The `for` loop of `scanDependencies` over the inputs still to visit; `self` is the
method itself, for the recursive call on an `Init` method. The result is the error
returned (`none` for nil) and the state reached, or `none` when `self` gave up. -/
def scanLoop {ρ : Type} (env : Env ρ) (ord : RangeOrder)
    (self : reflect.Method → State ρ → Option (Option Err × State ρ)) :
    List RType → State ρ → Option (Option Err × State ρ)
  | [], s => some (none, s)
  | input :: rest, s =>
    match dependencies.vaueOf env ord s.heap s.ds input with
    | (some _, ds1) => scanLoop env ord self rest { s with ds := ds1 }
    | (none, ds1) =>
      if env.isContextType input then scanLoop env ord self rest { s with ds := ds1 }
      else
        match newDependency env input s.heap s.pool with
        | (.error err, heap1, pool1) => some (some err, ⟨heap1, ds1, pool1⟩)
        | (.ok d, heap1, pool1) =>
          let s1 : State ρ := ⟨heap1, dependencies.add heap1 ds1 d, pool1⟩
          match (heap1.get? d).bind (fun dep => env.MethodByNameInit dep.Value.typ) with
          | none => scanLoop env ord self rest s1
          | some init =>
            match env.isValidInit init with
            | some err => some (some err, s1)
            | none =>
              match self init s1 with
              | none => none
              | some (some err, s2) => some (some err, s2)
              | some (none, s2) =>
                scanLoop env ord self rest { s2 with heap := setMethod s2.heap d init }

/-- The method `(ds dependencies) scanDependencies(m, r)`, with `fuel` bounding the
depth of the recursion through `Init` methods. -/
def scanDependencies {ρ : Type} (env : Env ρ) (ord : RangeOrder) :
    Nat → reflect.Method → State ρ → Option (Option Err × State ρ)
  | 0, _, _ => none
  | fuel + 1, m, s => scanLoop env ord (scanDependencies env ord fuel) m.ins s

/-- What `newDependencies` returns: the pair `(dependencies, error)`, together with the
heap the map's pointers refer to and the pool afterwards. -/
structure Built (ρ : Type) where
  graph : Option dependencies
  err : Option Err
  heap : List dependency
  pool : ρ

/-- The function `newDependencies(m, r)`. -/
def newDependencies {ρ : Type} (env : Env ρ) (ord : RangeOrder) (fuel : Nat)
    (m : reflect.Method) (r : ρ) : Option (Built ρ) :=
  match scanDependencies env ord fuel m ⟨[], ∅, r⟩ with
  | none => none
  | some (some err, s) => some ⟨none, some err, s.heap, s.pool⟩
  | some (none, s) => some ⟨some s.ds, none, s.heap, s.pool⟩

/-- The state right after `newDependency` returned a record for the pool value `v` and
`add` stored it: the record sits at the next free address, under the key `v.Type()`. -/
def State.added {ρ : Type} (s : State ρ) (v : reflect.Value) (pool1 : ρ) : State ρ :=
  ⟨s.heap ++ [⟨v, none⟩], s.ds.insert v.typ s.heap.length, pool1⟩

/-- The runs of the loop of `scanDependencies`, one rule per path through the loop
body: `Scan env ord ins s r s1` says that visiting the inputs `ins` from state `s`
returns `r` (`none` for a nil error) in state `s1`. It has no fuel; `scan_sound` and
`scan_complete` relate it to `scanDependencies`. -/
inductive Scan {ρ : Type} (env : Env ρ) (ord : RangeOrder) :
    List RType → State ρ → Option Err → State ρ → Prop where
  | done (s : State ρ) : Scan env ord [] s none s
  | hit (s : State ρ) (t : RType) (rest : List RType) (d : Ptr) (r : Option Err) (s1 : State ρ)
      (hl : s.ds.lookup t = some d)
      (hrest : Scan env ord rest s r s1) : Scan env ord (t :: rest) s r s1
  | reindex (s : State ρ) (t : RType) (rest : List RType) (e : Entry) (r : Option Err)
      (s1 : State ρ)
      (hl : s.ds.lookup t = none)
      (hf : (ord.enum t s.ds.entries).find? (isTypeAt env s.heap t) = some e)
      (hrest : Scan env ord rest { s with ds := s.ds.insert t e.2 } r s1) :
      Scan env ord (t :: rest) s r s1
  | context (s : State ρ) (t : RType) (rest : List RType) (r : Option Err) (s1 : State ρ)
      (hl : s.ds.lookup t = none)
      (hf : (ord.enum t s.ds.entries).find? (isTypeAt env s.heap t) = none)
      (hc : env.isContextType t = true)
      (hrest : Scan env ord rest s r s1) : Scan env ord (t :: rest) s r s1
  | invalid (s : State ρ) (t : RType) (rest : List RType) (err : Err)
      (hl : s.ds.lookup t = none)
      (hf : (ord.enum t s.ds.entries).find? (isTypeAt env s.heap t) = none)
      (hc : env.isContextType t = false)
      (hv : isValidDependencyType t = some err) : Scan env ord (t :: rest) s (some err) s
  | poolError (s : State ρ) (t : RType) (rest : List RType) (err : Err) (pool1 : ρ)
      (hl : s.ds.lookup t = none)
      (hf : (ord.enum t s.ds.entries).find? (isTypeAt env s.heap t) = none)
      (hc : env.isContextType t = false)
      (hv : isValidDependencyType t = none)
      (hp : env.valueOf s.pool t = (.error err, pool1)) :
      Scan env ord (t :: rest) s (some err) { s with pool := pool1 }
  | noInit (s : State ρ) (t : RType) (rest : List RType) (v : reflect.Value) (pool1 : ρ)
      (r : Option Err) (s1 : State ρ)
      (hl : s.ds.lookup t = none)
      (hf : (ord.enum t s.ds.entries).find? (isTypeAt env s.heap t) = none)
      (hc : env.isContextType t = false)
      (hv : isValidDependencyType t = none)
      (hp : env.valueOf s.pool t = (.ok v, pool1))
      (hi : env.MethodByNameInit v.typ = none)
      (hrest : Scan env ord rest (s.added v pool1) r s1) : Scan env ord (t :: rest) s r s1
  | badInit (s : State ρ) (t : RType) (rest : List RType) (v : reflect.Value) (pool1 : ρ)
      (init : reflect.Method) (err : Err)
      (hl : s.ds.lookup t = none)
      (hf : (ord.enum t s.ds.entries).find? (isTypeAt env s.heap t) = none)
      (hc : env.isContextType t = false)
      (hv : isValidDependencyType t = none)
      (hp : env.valueOf s.pool t = (.ok v, pool1))
      (hi : env.MethodByNameInit v.typ = some init)
      (hb : env.isValidInit init = some err) :
      Scan env ord (t :: rest) s (some err) (s.added v pool1)
  | initError (s : State ρ) (t : RType) (rest : List RType) (v : reflect.Value) (pool1 : ρ)
      (init : reflect.Method) (err : Err) (s2 : State ρ)
      (hl : s.ds.lookup t = none)
      (hf : (ord.enum t s.ds.entries).find? (isTypeAt env s.heap t) = none)
      (hc : env.isContextType t = false)
      (hv : isValidDependencyType t = none)
      (hp : env.valueOf s.pool t = (.ok v, pool1))
      (hi : env.MethodByNameInit v.typ = some init)
      (hb : env.isValidInit init = none)
      (hinit : Scan env ord init.ins (s.added v pool1) (some err) s2) :
      Scan env ord (t :: rest) s (some err) s2
  | initDone (s : State ρ) (t : RType) (rest : List RType) (v : reflect.Value) (pool1 : ρ)
      (init : reflect.Method) (s2 : State ρ) (r : Option Err) (s1 : State ρ)
      (hl : s.ds.lookup t = none)
      (hf : (ord.enum t s.ds.entries).find? (isTypeAt env s.heap t) = none)
      (hc : env.isContextType t = false)
      (hv : isValidDependencyType t = none)
      (hp : env.valueOf s.pool t = (.ok v, pool1))
      (hi : env.MethodByNameInit v.typ = some init)
      (hb : env.isValidInit init = none)
      (hinit : Scan env ord init.ins (s.added v pool1) none s2)
      (hrest : Scan env ord rest { s2 with heap := setMethod s2.heap s.heap.length init } r s1) :
      Scan env ord (t :: rest) s r s1

/-- The pool is well behaved: a value it returns for a pointer type has that type, and a
value it returns for an interface type has a type implementing the interface. -/
def WellBehaved {ρ : Type} (env : Env ρ) : Prop :=
  ∀ (r : ρ) (t : RType) (v : reflect.Value) (r1 : ρ), env.valueOf r t = (.ok v, r1) →
    (t.Kind = Kind.Ptr → v.typ = t) ∧ (t.Kind = Kind.Interface → env.Implements v.typ t = true)

/-- Every record the map points to is also stored under the key of its own type. -/
def OwnKeyed {ρ : Type} (s : State ρ) : Prop :=
  ∀ k p, s.ds.lookup k = some p →
    ∃ d, s.heap.get? p = some d ∧ s.ds.lookup d.Value.typ = some p

/-- Example type `*A`, a pointer to a struct. -/
def tA : RType := .ptr (.struct 0 0)

/-- Example type `A`, the bare struct behind `*A`. -/
def tS : RType := .struct 0 0

/-- Example type `*Impl`, a pointer to a struct implementing the interface `B`. -/
def tImpl : RType := .ptr (.struct 1 0)

/-- Example interface `B`. -/
def tB : RType := .iface 0

/-- Example type `*Cfg`, whose `Init` takes a `*DB`. -/
def tCfg : RType := .ptr (.struct 2 0)

/-- Example type `*DB`. -/
def tDB : RType := .ptr (.struct 3 0)

/-- Example type `*W`, a pointer to a struct implementing the context interface. -/
def tW : RType := .ptr (.struct 4 0)

/-- Example context interface, in the role of `http.ResponseWriter`. -/
def tRW : RType := .iface 9

/-- Example context pointer type, in the role of `*http.Request`. -/
def tReq : RType := .ptr (.struct 9 0)

/-- Example interface that no pool member implements. -/
def tNone : RType := .iface 1

/-- Example `Init` method of `*Cfg`: `func (c *Cfg) Init(db *DB) error`, the receiver
being the first input. -/
def initCfg : reflect.Method := ⟨[tCfg, tDB], [.iface 100]⟩

/-- An example program: `*Impl` implements `B`, `*W` implements the context interface,
`*Cfg` has an `Init`, `ptrOfType` gives the pointer type of a non-pointer type, and the
pool returns a value of the requested pointer type, `*Impl` for `B`, and an error for
any other interface. -/
def demo : Env Unit where
  Implements := fun c t => decide ((c = tImpl ∧ t = tB) ∨ (c = tW ∧ t = tRW))
  MethodByNameInit := fun c => if c = tCfg then some initCfg else none
  isContextType := fun t => decide (t = tRW ∨ t = tReq)
  isValidInit := fun _ => none
  ptrOfType := fun t => match t with
    | .ptr e => .ptr e
    | t => .ptr t
  valueOf := fun r t => match t with
    | .iface 0 => (.ok ⟨tImpl, some 1⟩, r)
    | .iface _ => (.error (Err.NoImplementationFound t), r)
    | t => (.ok ⟨t, some 0⟩, r)

/-- The type `c` is a key bound to a record whose `Value` has type `c`. -/
def OwnAt {ρ : Type} (c : RType) (s : State ρ) : Prop :=
  ∃ p d, s.ds.lookup c = some p ∧ s.heap.get? p = some d ∧ d.Value.typ = c

/-- The input type `T` is resolved in state `s`: it is a key of the map, or it is a valid
dependency type for which the pool returned a value whose type is a key bound to a record
of that type. -/
def Resolved {ρ : Type} (env : Env ρ) (T : RType) (s : State ρ) : Prop :=
  (∃ p, s.ds.lookup T = some p) ∨
  ∃ pool v pool1, isValidDependencyType T = none ∧ env.valueOf pool T = (.ok v, pool1) ∧
    OwnAt v.typ s

/-- The program `env` with the pool method replaced by `f`. -/
def Env.withValueOf {ρ : Type} (env : Env ρ)
    (f : ρ → RType → Except Err reflect.Value × ρ) : Env ρ :=
  { env with valueOf := f }

/-- Every key is bound to a record that satisfies it: the record's `Value` has the key
as its type, or the record passes `isType` for the key. -/
def KeySatisfied {ρ : Type} (env : Env ρ) (s : State ρ) : Prop :=
  ∀ k p, s.ds.lookup k = some p →
    ∃ d, s.heap.get? p = some d ∧ (d.Value.typ = k ∨ d.isType env k = true)

/-- The record at address `p` has its initializer attached: when the type of its `Value`
has an `Init` method, `Method` holds the descriptor of that method and every input of it
that is not a context type is resolved in the state. -/
def InitClosed {ρ : Type} (env : Env ρ) (s : State ρ) (p : Ptr) : Prop :=
  ∀ d, s.heap.get? p = some d → ∀ init, env.MethodByNameInit d.Value.typ = some init →
    d.Method = some (newMethod init) ∧
    ∀ T ∈ init.ins, env.isContextType T = false → Resolved env T s

/-- Decides whether the type `c` is a key bound to a record whose `Value` has type `c`. -/
def ownsKey {ρ : Type} (s : State ρ) (c : RType) : Bool :=
  match s.ds.lookup c with
  | some p =>
    match s.heap.get? p with
    | some d => decide (d.Value.typ = c)
    | none => false
  | none => false

/-- The number of types of the universe `U` that are not yet own-typed keys: the
measure that decreases with every recursive call of `scanDependencies`. -/
def pending {ρ : Type} (U : List RType) (s : State ρ) : Nat :=
  U.countP (fun c => !ownsKey s c)

/-- The list `U` is a universe of types for the program: it contains the type of every
value the pool returns for a type of `U` and the inputs of the `Init` method of every
type of `U`. -/
structure Universe {ρ : Type} (env : Env ρ) (U : List RType) : Prop where
  pool : ∀ (r : ρ) (t : RType) (v : reflect.Value) (r1 : ρ), t ∈ U →
    env.valueOf r t = (.ok v, r1) → v.typ ∈ U
  init : ∀ c ∈ U, ∀ init, env.MethodByNameInit c = some init → ∀ T ∈ init.ins, T ∈ U

/-- What a memory location holds: a struct value, field by field (a word per field, a
scalar or a reference); a slice header with the address of its backing array, its
length and its capacity; the backing array of a slice of structs; or a single word. -/
inductive Cell where
  | struct (fields : List Nat)
  | slice (array : Option Nat) (len : Nat) (cap : Nat)
  | array (elems : List (List Nat))
  | word (w : Nat)
  deriving DecidableEq, Repr

/-- The memory the `reflect.Value`s point into; a new location is the next address. -/
abbrev Memory := List Cell

/-- The zero value `reflect.New` stores for a type. -/
def zeroCell : RType → Cell
  | .struct _ n => .struct (List.replicate n 0)
  | .slice _ => .slice none 0 0
  | _ => .word 0

/-- The method `(d *dependency) init()`. `reflect.New(d.Value.Type().Elem())` allocates
a zero value at a new location, `v.Elem().Set(d.Value.Elem())` assigns the template's
pointee to it, and the pointer `v` is returned. The result is `none` when the call
panics: `Elem` on a type or value that is not a pointer, or `Set` from a nil pointer. -/
def dependency.init (mem : Memory) (d : dependency) : Option (reflect.Value × Memory) :=
  match d.Value.typ with
  | .ptr elem =>
    let v : reflect.Value := ⟨.ptr elem, some mem.length⟩
    let mem1 := mem ++ [zeroCell elem]
    match d.Value.ptr with
    | none => none
    | some l =>
      match mem1.get? l with
      | none => none
      | some cell => some (v, mem1.set mem.length cell)
  | _ => none

/-- The value seen through a pointer: the fields of a struct, or the elements of a
slice read from its backing array. -/
inductive Content where
  | struct (fields : List Nat)
  | slice (elems : List (List Nat))
  deriving DecidableEq, Repr

/-- The value reachable through the pointer `p`. -/
def load (mem : Memory) (p : Nat) : Option Content :=
  match mem.get? p with
  | some (.struct fields) => some (.struct fields)
  | some (.slice none _ _) => some (.slice [])
  | some (.slice (some a) len _) =>
    match mem.get? a with
    | some (.array elems) => some (.slice (elems.take len))
    | _ => none
  | _ => none

/-- The assignment `p.f = x` to field number `i` of the struct `p` points to. -/
def assignField (mem : Memory) (p i x : Nat) : Option Memory :=
  match mem.get? p with
  | some (.struct fields) =>
    if i < fields.length then some (mem.set p (.struct (fields.set i x))) else none
  | _ => none

/-- The assignment `(*p)[j] = s` to an element of the slice `p` points to. -/
def assignElem (mem : Memory) (p j : Nat) (s : List Nat) : Option Memory :=
  match mem.get? p with
  | some (.slice (some a) len _) =>
    if j < len then
      match mem.get? a with
      | some (.array elems) => some (mem.set a (.array (elems.set j s)))
      | _ => none
    else none
  | _ => none

/-- The assignment `(*p)[j].f = x` to field number `i` of an element of the slice. -/
def assignElemField (mem : Memory) (p j i x : Nat) : Option Memory :=
  match mem.get? p with
  | some (.slice (some a) len _) =>
    if j < len then
      match mem.get? a with
      | some (.array elems) =>
        some (mem.set a (.array (elems.modify (fun e => e.set i x) j)))
      | _ => none
    else none
  | _ => none

/-- The assignment `*p = s` of a whole slice (its header) to the slice `p` points to. -/
def assignSlice (mem : Memory) (p : Nat) (array : Option Nat) (len cap : Nat) :
    Option Memory :=
  match mem.get? p with
  | some (.slice _ _ _) => some (mem.set p (.slice array len cap))
  | _ => none

/-- Example template of a `*[]Item` dependency: the slice header at location 0 over
the backing array at location 1 holding one struct. -/
def sliceMem : Memory := [.slice (some 1) 1 1, .array [[7]]]

/-- Example dependency record of type `*[]Item` whose template is at location 0. -/
def sliceDep : dependency := ⟨⟨.ptr (.slice (.struct 5 1)), some 0⟩, none⟩

/-- Example template of a `*Item` dependency: a struct with two fields at location 0. -/
def structMem : Memory := [.struct [7, 8]]

/-- Example dependency record of type `*Item` whose template is at location 0. -/
def structDep : dependency := ⟨⟨.ptr (.struct 5 2), some 0⟩, none⟩

/-- The input type `T` is acceptable: a context type or a valid dependency type. -/
def Acceptable {ρ : Type} (env : Env ρ) (T : RType) : Prop :=
  env.isContextType T = true ∨ isValidDependencyType T = none

/-- Nothing in the universe `U` can make a build fail: the pool returns a value for
every valid dependency type of `U` that is not a context type, and every `Init` method
of a type of `U` is accepted by `isValidInit` and has acceptable inputs. -/
structure Buildable {ρ : Type} (env : Env ρ) (U : List RType) : Prop where
  pool : ∀ (r : ρ) (t : RType), t ∈ U → env.isContextType t = false →
    isValidDependencyType t = none → ∃ v r1, env.valueOf r t = (.ok v, r1)
  init : ∀ c ∈ U, ∀ init, env.MethodByNameInit c = some init →
    env.isValidInit init = none ∧ ∀ T ∈ init.ins, Acceptable env T

/-- The example program with an `isValidInit` that rejects the `Init` of `*Cfg`. -/
def strict : Env Unit :=
  { demo with isValidInit := fun _ => some Err.InvalidInitializerSignature }

/-- The shapes the comment of the field `Value` names: pointer to struct, or pointer to
slice of struct. -/
def templateShape : RType → Bool
  | .ptr (.struct _ _) => true
  | .ptr (.slice (.struct _ _)) => true
  | _ => false

/-- Example type `*Count`, a pointer to a named integer type with methods. -/
def tCount : RType := .ptr (.prim 7)

/-- The example program with a pool whose member implementing the interface `B` is a
`*Count`, a pointer to a named integer. The pool is well behaved. -/
def counting : Env Unit :=
  { demo with
    Implements := fun c t => decide (c = tCount ∧ t = tB)
    valueOf := fun r t => match t with
      | .iface 0 => (.ok ⟨tCount, some 1⟩, r)
      | .iface _ => (.error (Err.NoImplementationFound t), r)
      | t => (.ok ⟨t, some 0⟩, r) }

/-- The example program with `Init` methods that require each other: `*Cfg` has
`Init(db *DB)` and `*DB` has `Init(c *Cfg)`, each with its receiver as first input. -/
def cyclic : Env Unit :=
  { demo with
    MethodByNameInit := fun c =>
      if c = tCfg then some ⟨[tCfg, tDB], []⟩
      else if c = tDB then some ⟨[tDB, tCfg], []⟩
      else none }

/-- The example program in which both `*Impl` and `*W` implement the interface `B`. -/
def twoImpl : Env Unit :=
  { demo with Implements := fun c t => decide ((c = tImpl ∨ c = tW) ∧ t = tB) }

/-- The heaps and maps reachable from the empty map by allocating records and by calls
to `add` and `vaueOf`, with assignments to `Method` in between. -/
inductive Reachable {ρ : Type} (env : Env ρ) : List dependency → dependencies → Prop where
  | empty (heap : List dependency) : Reachable env heap ∅
  | alloc (heap : List dependency) (ds : dependencies) (x : dependency)
      (h : Reachable env heap ds) : Reachable env (heap ++ [x]) ds
  | add (heap : List dependency) (ds : dependencies) (d : Ptr) (dep : dependency)
      (h : Reachable env heap ds) (hd : heap.get? d = some dep) :
      Reachable env heap (dependencies.add heap ds d)
  | vaueOf (heap : List dependency) (ds : dependencies) (ord : RangeOrder) (t : RType)
      (h : Reachable env heap ds) :
      Reachable env heap (dependencies.vaueOf env ord heap ds t).2
  | setMethod (heap : List dependency) (ds : dependencies) (d : Ptr) (init : reflect.Method)
      (h : Reachable env heap ds) : Reachable env (setMethod heap d init) ds

/-- Go's method-set rule as far as `isType` uses it: a record that passes `isType(k)`
has a type that implements every interface `k` implements. For an interface `k` the
record's type has all methods of `k`; for any other `k` the record's type is
`ptrOfType(k)`, whose method set contains that of `k`. -/
def MethodSets {ρ : Type} (env : Env ρ) : Prop :=
  ∀ (d : dependency) (k t : RType), t.Kind = Kind.Interface → d.isType env k = true →
    env.Implements k t = true → env.Implements d.Value.typ t = true

/-! ## Theorems -/

variable {ρ : Type}

/-- The three outcomes of `vaueOf`. -/
theorem vaueOf_cases (env : Env ρ) (ord : RangeOrder) (heap : List dependency)
    (ds : dependencies) (t : RType) :
    (∃ d, ds.lookup t = some d ∧ dependencies.vaueOf env ord heap ds t = (some d, ds)) ∨
    (∃ e, ds.lookup t = none ∧ (ord.enum t ds.entries).find? (isTypeAt env heap t) = some e ∧
      dependencies.vaueOf env ord heap ds t = (some e.2, ds.insert t e.2)) ∨
    (ds.lookup t = none ∧ (ord.enum t ds.entries).find? (isTypeAt env heap t) = none ∧
      dependencies.vaueOf env ord heap ds t = (none, ds)) := by
  unfold dependencies.vaueOf
  cases hl : ds.lookup t with
  | some d => exact Or.inl ⟨d, rfl, rfl⟩
  | none =>
    right
    cases hf : (ord.enum t ds.entries).find? (isTypeAt env heap t) with
    | some e => exact Or.inl ⟨e, rfl, rfl, rfl⟩
    | none => exact Or.inr ⟨rfl, rfl, rfl⟩

/-- What the range loop found is a pair of the map that passes `isType`. -/
theorem find_some_spec (env : Env ρ) (ord : RangeOrder) (heap : List dependency)
    (ds : dependencies) (t : RType) (e : Entry)
    (hf : (ord.enum t ds.entries).find? (isTypeAt env heap t) = some e) :
    e ∈ ds.entries ∧ isTypeAt env heap t e = true :=
  ⟨(ord.perm t ds.entries).mem_iff.mp (List.mem_of_find?_eq_some hf), List.find?_some hf⟩

/-- When the range loop found nothing, no pair of the map passes `isType`. -/
theorem find_none_spec (env : Env ρ) (ord : RangeOrder) (heap : List dependency)
    (ds : dependencies) (t : RType)
    (hf : (ord.enum t ds.entries).find? (isTypeAt env heap t) = none) :
    ∀ e ∈ ds.entries, isTypeAt env heap t e = false := by
  intro e he
  have h := List.find?_eq_none.mp hf e ((ord.perm t ds.entries).mem_iff.mpr he)
  simpa using h

theorem add_fresh (heap : List dependency) (ds : dependencies) (v : reflect.Value) :
    dependencies.add (heap ++ [⟨v, none⟩]) ds heap.length = ds.insert v.typ heap.length := by
  simp [dependencies.add]

theorem init_fresh (env : Env ρ) (heap : List dependency) (v : reflect.Value) :
    ((heap ++ [(⟨v, none⟩ : dependency)]).get? heap.length).bind
      (fun dep => env.MethodByNameInit dep.Value.typ) = env.MethodByNameInit v.typ := by
  simp

/-- Every result of the loop is a run of `Scan`, when the recursive calls are. -/
theorem scanLoop_sound (env : Env ρ) (ord : RangeOrder)
    (self : reflect.Method → State ρ → Option (Option Err × State ρ))
    (hself : ∀ m s r s1, self m s = some (r, s1) → Scan env ord m.ins s r s1) :
    ∀ ins s r s1, scanLoop env ord self ins s = some (r, s1) → Scan env ord ins s r s1 := by
  intro ins
  induction ins with
  | nil =>
    intro s r s1 h
    simp only [scanLoop, Option.some.injEq, Prod.mk.injEq] at h
    rw [← h.1, ← h.2]; exact Scan.done s
  | cons input rest ih =>
    intro s r s1 h
    rw [scanLoop] at h
    rcases vaueOf_cases env ord s.heap s.ds input with ⟨d, hl, hv⟩ | ⟨e, hl, hf, hv⟩ | ⟨hl, hf, hv⟩
    · rw [hv] at h
      exact Scan.hit s input rest d r s1 hl (ih _ r s1 h)
    · rw [hv] at h
      exact Scan.reindex s input rest e r s1 hl hf (ih _ r s1 h)
    · rw [hv] at h
      simp only at h
      by_cases hc : env.isContextType input = true
      · rw [if_pos hc] at h
        exact Scan.context s input rest r s1 hl hf hc (ih _ r s1 h)
      · rw [if_neg hc] at h
        have hc1 : env.isContextType input = false := by simpa using hc
        unfold newDependency at h
        cases hvd : isValidDependencyType input with
        | some err =>
          rw [hvd] at h
          simp only [Option.some.injEq, Prod.mk.injEq] at h
          rw [← h.1, ← h.2]
          exact Scan.invalid s input rest err hl hf hc1 hvd
        | none =>
          rw [hvd] at h
          simp only at h
          rcases hpool : env.valueOf s.pool input with ⟨res, pool1⟩
          rw [hpool] at h
          cases res with
          | error err =>
            simp only [Option.some.injEq, Prod.mk.injEq] at h
            rw [← h.1, ← h.2]
            exact Scan.poolError s input rest err pool1 hl hf hc1 hvd hpool
          | ok v =>
            simp only at h
            rw [add_fresh, init_fresh] at h
            cases hinit : env.MethodByNameInit v.typ with
            | none =>
              rw [hinit] at h
              exact Scan.noInit s input rest v pool1 r s1 hl hf hc1 hvd hpool hinit (ih _ r s1 h)
            | some init =>
              rw [hinit] at h
              simp only at h
              cases hvi : env.isValidInit init with
              | some err =>
                rw [hvi] at h
                simp only [Option.some.injEq, Prod.mk.injEq] at h
                rw [← h.1, ← h.2]
                exact Scan.badInit s input rest v pool1 init err hl hf hc1 hvd hpool hinit hvi
              | none =>
                rw [hvi] at h
                simp only at h
                cases hrec : self init ⟨s.heap ++ [⟨v, none⟩], s.ds.insert v.typ s.heap.length, pool1⟩ with
                | none => rw [hrec] at h; simp at h
                | some res =>
                  rcases res with ⟨r2, s2⟩
                  rw [hrec] at h
                  have h2 := hself init _ r2 s2 hrec
                  cases r2 with
                  | some err =>
                    simp only [Option.some.injEq, Prod.mk.injEq] at h
                    rw [← h.1, ← h.2]
                    exact Scan.initError s input rest v pool1 init err s2 hl hf hc1 hvd hpool hinit hvi h2
                  | none =>
                    simp only at h
                    exact Scan.initDone s input rest v pool1 init s2 r s1 hl hf hc1 hvd hpool hinit hvi
                      h2 (ih _ r s1 h)

/-- Every result of `scanDependencies` is a run of `Scan`. -/
theorem scan_sound (env : Env ρ) (ord : RangeOrder) :
    ∀ fuel m s r s1, scanDependencies env ord fuel m s = some (r, s1) →
      Scan env ord m.ins s r s1 := by
  intro fuel
  induction fuel with
  | zero => intro m s r s1 h; simp [scanDependencies] at h
  | succ n ih =>
    intro m s r s1 h
    rw [scanDependencies] at h
    exact scanLoop_sound env ord _ ih m.ins s r s1 h

/-- A run of `Scan` is the result of the loop for every `self` that returns the runs
of the nested calls. -/
theorem scanLoop_complete (env : Env ρ) (ord : RangeOrder) {ins : List RType} {s : State ρ}
    {r : Option Err} {s1 : State ρ} (h : Scan env ord ins s r s1) :
    ∃ n, ∀ fuel, n ≤ fuel → scanLoop env ord (scanDependencies env ord fuel) ins s = some (r, s1) := by
  induction h with
  | done s => exact ⟨0, fun fuel _ => by simp [scanLoop]⟩
  | hit s t rest d r s1 hl _ ih =>
    obtain ⟨n, hn⟩ := ih
    refine ⟨n, fun fuel hf => ?_⟩
    rw [scanLoop]
    simp only [dependencies.vaueOf, hl]
    exact hn fuel hf
  | reindex s t rest e r s1 hl hf _ ih =>
    obtain ⟨n, hn⟩ := ih
    refine ⟨n, fun fuel hfu => ?_⟩
    rw [scanLoop]
    simp only [dependencies.vaueOf, hl, hf]
    exact hn fuel hfu
  | context s t rest r s1 hl hf hc _ ih =>
    obtain ⟨n, hn⟩ := ih
    refine ⟨n, fun fuel hfu => ?_⟩
    rw [scanLoop]
    simp only [dependencies.vaueOf, hl, hf, hc, if_true]
    exact hn fuel hfu
  | invalid s t rest err hl hf hc hv =>
    refine ⟨0, fun fuel _ => ?_⟩
    rw [scanLoop]
    simp [dependencies.vaueOf, hl, hf, hc, newDependency, hv]
  | poolError s t rest err pool1 hl hf hc hv hp =>
    refine ⟨0, fun fuel _ => ?_⟩
    rw [scanLoop]
    simp [dependencies.vaueOf, hl, hf, hc, newDependency, hv, hp]
  | noInit s t rest v pool1 r s1 hl hf hc hv hp hi _ ih =>
    obtain ⟨n, hn⟩ := ih
    refine ⟨n, fun fuel hfu => ?_⟩
    rw [scanLoop]
    simp only [dependencies.vaueOf, hl, hf, hc, newDependency, hv, hp, add_fresh, init_fresh, hi]
    exact hn fuel hfu
  | badInit s t rest v pool1 init err hl hf hc hv hp hi hb =>
    refine ⟨0, fun fuel _ => ?_⟩
    rw [scanLoop]
    simp [dependencies.vaueOf, hl, hf, hc, newDependency, hv, hp, hi, hb, State.added,
      dependencies.add]
  | initError s t rest v pool1 init err s2 hl hf hc hv hp hi hb _ ih =>
    obtain ⟨n, hn⟩ := ih
    refine ⟨n + 1, fun fuel hfu => ?_⟩
    obtain ⟨k, rfl⟩ : ∃ k, fuel = k + 1 := ⟨fuel - 1, by omega⟩
    rw [scanLoop]
    simp only [dependencies.vaueOf, hl, hf, hc, newDependency, hv, hp, add_fresh, init_fresh, hi, hb]
    have := hn k (by omega)
    simp only [scanDependencies, State.added] at this ⊢
    simp [this]
  | initDone s t rest v pool1 init s2 r s1 hl hf hc hv hp hi hb _ _ ih1 ih2 =>
    obtain ⟨n1, hn1⟩ := ih1
    obtain ⟨n2, hn2⟩ := ih2
    refine ⟨max (n1 + 1) n2, fun fuel hfu => ?_⟩
    obtain ⟨k, rfl⟩ : ∃ k, fuel = k + 1 := ⟨fuel - 1, by omega⟩
    rw [scanLoop]
    simp only [dependencies.vaueOf, hl, hf, hc, newDependency, hv, hp, add_fresh, init_fresh, hi, hb]
    have h1 := hn1 k (by omega)
    have h2 := hn2 (k + 1) (by omega)
    simp only [scanDependencies, State.added] at h1 h2 ⊢
    simp [h1, h2]

/-- A property of states that every step of the loop body keeps holds at the end of
every run. -/
theorem Scan.invariant (env : Env ρ) (ord : RangeOrder) (P : State ρ → Prop)
    (hfound : ∀ (s : State ρ) t e, s.ds.lookup t = none → e ∈ s.ds.entries →
      isTypeAt env s.heap t e = true → P s → P { s with ds := s.ds.insert t e.2 })
    (herr : ∀ (s : State ρ) t err pool1, env.valueOf s.pool t = (.error err, pool1) →
      P s → P { s with pool := pool1 })
    (hnew : ∀ (s : State ρ) t v pool1, s.ds.lookup t = none →
      (∀ e ∈ s.ds.entries, isTypeAt env s.heap t e = false) →
      env.isContextType t = false → isValidDependencyType t = none →
      env.valueOf s.pool t = (.ok v, pool1) → P s → P (s.added v pool1))
    (hset : ∀ (s : State ρ) d init, P s → P { s with heap := setMethod s.heap d init })
    {ins : List RType} {s : State ρ} {r : Option Err} {s1 : State ρ}
    (h : Scan env ord ins s r s1) : P s → P s1 := by
  induction h with
  | done s => exact id
  | hit s t rest d r s1 hl _ ih => exact ih
  | reindex s t rest e r s1 hl hf _ ih =>
    intro hp
    have hs := find_some_spec env ord s.heap s.ds t e hf
    exact ih (hfound s t e hl hs.1 hs.2 hp)
  | context s t rest r s1 hl hf hc _ ih => exact ih
  | invalid s t rest err hl hf hc hv => exact id
  | poolError s t rest err pool1 hl hf hc hv hp => exact herr s t err pool1 hp
  | noInit s t rest v pool1 r s1 hl hf hc hv hp hi _ ih =>
    intro h0
    exact ih (hnew s t v pool1 hl (find_none_spec env ord s.heap s.ds t hf) hc hv hp h0)
  | badInit s t rest v pool1 init err hl hf hc hv hp hi hb =>
    intro h0
    exact hnew s t v pool1 hl (find_none_spec env ord s.heap s.ds t hf) hc hv hp h0
  | initError s t rest v pool1 init err s2 hl hf hc hv hp hi hb _ ih =>
    intro h0
    exact ih (hnew s t v pool1 hl (find_none_spec env ord s.heap s.ds t hf) hc hv hp h0)
  | initDone s t rest v pool1 init s2 r s1 hl hf hc hv hp hi hb _ _ ih1 ih2 =>
    intro h0
    exact ih2 (hset s2 s.heap.length init
      (ih1 (hnew s t v pool1 hl (find_none_spec env ord s.heap s.ds t hf) hc hv hp h0)))

/-- A valid dependency type is a pointer type or an interface type. -/
theorem valid_kind (t : RType) (h : isValidDependencyType t = none) :
    t.Kind = Kind.Ptr ∨ t.Kind = Kind.Interface := by
  cases t <;> simp_all [isValidDependencyType, RType.Kind]

/-- Assigning `Method` leaves every `Value` as it is. -/
theorem setMethod_get (heap : List dependency) (d : Ptr) (init : reflect.Method) (p : Ptr) :
    ((setMethod heap d init).get? p).map (fun x => x.Value) = (heap.get? p).map (fun x => x.Value) := by
  simp only [setMethod, List.get?_eq_getElem?, List.getElem?_modify]
  by_cases h : d = p
  · subst h; simp; cases heap[d]? <;> simp
  · simp [h]

theorem setMethod_get_some (heap : List dependency) (d : Ptr) (init : reflect.Method) (p : Ptr)
    (x : dependency) (h : heap.get? p = some x) :
    ∃ y, (setMethod heap d init).get? p = some y ∧ y.Value = x.Value := by
  have := setMethod_get heap d init p
  rw [h] at this
  cases hy : (setMethod heap d init).get? p with
  | none => rw [hy] at this; simp at this
  | some y => rw [hy] at this; exact ⟨y, rfl, by simpa using this⟩

theorem setMethod_get_inv (heap : List dependency) (d : Ptr) (init : reflect.Method) (p : Ptr)
    (y : dependency) (h : (setMethod heap d init).get? p = some y) :
    ∃ x, heap.get? p = some x ∧ y.Value = x.Value := by
  have := setMethod_get heap d init p
  rw [h] at this
  cases hx : heap.get? p with
  | none => rw [hx] at this; simp at this
  | some x => rw [hx] at this; exact ⟨x, rfl, by simpa using this⟩

/-- The test `isType` reads only the `Value` of a record. -/
theorem isTypeAt_setMethod (env : Env ρ) (heap : List dependency) (d : Ptr)
    (init : reflect.Method) (t : RType) (e : Entry) :
    isTypeAt env (setMethod heap d init) t e = isTypeAt env heap t e := by
  unfold isTypeAt
  cases hx : heap.get? e.2 with
  | none =>
    cases hy : (setMethod heap d init).get? e.2 with
    | none => rfl
    | some y =>
      obtain ⟨x, hx1, -⟩ := setMethod_get_inv heap d init e.2 y hy
      rw [hx] at hx1; simp at hx1
  | some x =>
    obtain ⟨y, hy, hv⟩ := setMethod_get_some heap d init e.2 x hx
    rw [hy]
    simp [dependency.isType, hv]

/-- With a well-behaved pool, every step of the loop keeps `OwnKeyed`. -/
theorem Scan.ownKeyed (env : Env ρ) (ord : RangeOrder) (hwb : WellBehaved env)
    {ins : List RType} {s : State ρ} {r : Option Err} {s1 : State ρ}
    (h : Scan env ord ins s r s1) : OwnKeyed s → OwnKeyed s1 := by
  refine Scan.invariant env ord OwnKeyed ?_ ?_ ?_ ?_ h
  · intro s t e hl he _ hp k p hk
    have hne : ∀ d : dependency, s.ds.lookup d.Value.typ = some p → d.Value.typ ≠ t := by
      intro d hd heq; rw [heq, hl] at hd; simp at hd
    by_cases hkt : k = t
    · subst hkt
      simp only [AList.lookup_insert, Option.some.injEq] at hk
      subst hk
      have hle : s.ds.lookup e.1 = some e.2 := AList.mem_lookup_iff.mpr he
      obtain ⟨d, hd, hd2⟩ := hp e.1 e.2 hle
      refine ⟨d, hd, ?_⟩
      show AList.lookup _ (AList.insert _ _ _) = _
      rw [AList.lookup_insert_ne (hne d hd2)]; exact hd2
    · simp only [AList.lookup_insert_ne hkt] at hk
      obtain ⟨d, hd, hd2⟩ := hp k p hk
      refine ⟨d, hd, ?_⟩
      show AList.lookup _ (AList.insert _ _ _) = _
      rw [AList.lookup_insert_ne (hne d hd2)]; exact hd2
  · intro s t err pool1 _ hp; exact hp
  · intro s t v pool1 hl hno hc hv hpool hp k p hk
    simp only [State.added] at hk ⊢
    by_cases hkt : k = v.typ
    · subst hkt
      simp only [AList.lookup_insert, Option.some.injEq] at hk
      subst hk
      exact ⟨⟨v, none⟩, by simp, by simp⟩
    · simp only [AList.lookup_insert_ne hkt] at hk
      obtain ⟨d, hd, hd2⟩ := hp k p hk
      have hne : d.Value.typ ≠ v.typ := by
        intro heq
        rw [heq] at hd2
        rcases valid_kind t hv with hk1 | hk1
        · have := (hwb s.pool t v pool1 hpool).1 hk1
          rw [this, hl] at hd2; simp at hd2
        · have himp := (hwb s.pool t v pool1 hpool).2 hk1
          have hmem : (⟨v.typ, p⟩ : Entry) ∈ s.ds.entries := AList.mem_lookup_iff.mp hd2
          have := hno _ hmem
          unfold isTypeAt at this
          rw [hd] at this
          simp [dependency.isType, hk1, heq, himp] at this
      refine ⟨d, ?_, ?_⟩
      · have hlt : p < s.heap.length := by
          rw [List.get?_eq_getElem?] at hd
          exact (List.getElem?_eq_some_iff.mp hd).1
        rw [List.get?_eq_getElem?, List.getElem?_append_left hlt, ← List.get?_eq_getElem?]
        exact hd
      · rw [AList.lookup_insert_ne hne]; exact hd2
  · intro s d init hp k p hk
    obtain ⟨x, hx, hx2⟩ := hp k p hk
    obtain ⟨y, hy, hv⟩ := setMethod_get_some s.heap d init p x hx
    exact ⟨y, hy, by rw [hv]; exact hx2⟩

/-- The example pool is well behaved. -/
theorem demo_wellBehaved : WellBehaved demo := by
  intro r t v r1 h
  cases t with
  | iface n =>
    cases n with
    | zero =>
      simp only [demo, Prod.mk.injEq, Except.ok.injEq] at h
      rw [← h.1]
      exact ⟨fun hk => by simp [RType.Kind] at hk, fun _ => by decide⟩
    | succ n => simp [demo] at h
  | prim n =>
    simp only [demo, Prod.mk.injEq, Except.ok.injEq] at h
    rw [← h.1]; exact ⟨fun _ => rfl, fun hk => by simp [RType.Kind] at hk⟩
  | struct n k =>
    simp only [demo, Prod.mk.injEq, Except.ok.injEq] at h
    rw [← h.1]; exact ⟨fun _ => rfl, fun hk => by simp [RType.Kind] at hk⟩
  | slice e =>
    simp only [demo, Prod.mk.injEq, Except.ok.injEq] at h
    rw [← h.1]; exact ⟨fun _ => rfl, fun hk => by simp [RType.Kind] at hk⟩
  | ptr e =>
    simp only [demo, Prod.mk.injEq, Except.ok.injEq] at h
    rw [← h.1]; exact ⟨fun _ => rfl, fun hk => by simp [RType.Kind] at hk⟩
  | func n =>
    simp only [demo, Prod.mk.injEq, Except.ok.injEq] at h
    rw [← h.1]; exact ⟨fun _ => rfl, fun hk => by simp [RType.Kind] at hk⟩

/-- What `newDependencies` returns is the outcome of a run of the scan from the empty
map: the map reached when the run returned nil, no map and the error otherwise. -/
theorem newDependencies_cases (env : Env ρ) (ord : RangeOrder) (fuel : Nat)
    (m : reflect.Method) (r : ρ) (b : Built ρ)
    (h : newDependencies env ord fuel m r = some b) :
    (∃ s, Scan env ord m.ins ⟨[], ∅, r⟩ none s ∧ b = ⟨some s.ds, none, s.heap, s.pool⟩) ∨
    (∃ err s, Scan env ord m.ins ⟨[], ∅, r⟩ (some err) s ∧
      b = ⟨none, some err, s.heap, s.pool⟩) := by
  unfold newDependencies at h
  cases hs : scanDependencies env ord fuel m ⟨[], ∅, r⟩ with
  | none => rw [hs] at h; simp at h
  | some res =>
    rcases res with ⟨e, s⟩
    rw [hs] at h
    have hscan := scan_sound env ord fuel m _ e s hs
    cases e with
    | none =>
      simp only [Option.some.injEq] at h
      exact Or.inl ⟨s, hscan, h.symm⟩
    | some err =>
      simp only [Option.some.injEq] at h
      exact Or.inr ⟨err, s, hscan, h.symm⟩

/-- The run behind a successful `newDependencies`. -/
theorem newDependencies_ok (env : Env ρ) (ord : RangeOrder) (fuel : Nat)
    (m : reflect.Method) (r : ρ) (b : Built ρ) (g : dependencies)
    (h : newDependencies env ord fuel m r = some b) (hg : b.graph = some g) :
    Scan env ord m.ins ⟨[], ∅, r⟩ none ⟨b.heap, g, b.pool⟩ ∧ b.err = none := by
  rcases newDependencies_cases env ord fuel m r b h with ⟨s, hs, rfl⟩ | ⟨err, s, _, rfl⟩
  · simp only [Option.some.injEq] at hg
    subst hg
    exact ⟨hs, rfl⟩
  · simp at hg

/-- The empty map is keyed by own type. -/
theorem ownKeyed_empty (r : ρ) : OwnKeyed (⟨[], ∅, r⟩ : State ρ) := by
  intro k p hk
  simp at hk

/-- C1. Single entry per underlying type: with a well-behaved pool, in the graph that
`newDependencies` returns every stored pointer refers to a record, and two stored
pointers (under any keys) whose records have a `Value` of the same type are the same
pointer. -/
theorem single_entry_per_type (env : Env ρ) (ord : RangeOrder) (hwb : WellBehaved env)
    (fuel : Nat) (m : reflect.Method) (r : ρ) (b : Built ρ) (g : dependencies)
    (hb : newDependencies env ord fuel m r = some b) (hg : b.graph = some g) :
    (∀ k p, g.lookup k = some p → ∃ d, b.heap.get? p = some d) ∧
    ∀ k1 k2 p1 p2 d1 d2, g.lookup k1 = some p1 → g.lookup k2 = some p2 →
      b.heap.get? p1 = some d1 → b.heap.get? p2 = some d2 →
      d1.Value.typ = d2.Value.typ → p1 = p2 := by
  have hscan := (newDependencies_ok env ord fuel m r b g hb hg).1
  have hown : OwnKeyed (⟨b.heap, g, b.pool⟩ : State ρ) :=
    Scan.ownKeyed env ord hwb hscan (ownKeyed_empty r)
  refine ⟨fun k p hk => ?_, ?_⟩
  · obtain ⟨d, hd, -⟩ := hown k p hk
    exact ⟨d, hd⟩
  · intro k1 k2 p1 p2 d1 d2 h1 h2 hd1 hd2 heq
    obtain ⟨x1, hx1, hl1⟩ := hown k1 p1 h1
    obtain ⟨x2, hx2, hl2⟩ := hown k2 p2 h2
    simp only at hx1 hx2 hl1 hl2
    rw [hd1] at hx1
    rw [hd2] at hx2
    simp only [Option.some.injEq] at hx1 hx2
    subst hx1 hx2
    rw [heq, hl2] at hl1
    simpa using hl1.symm

/-- Witness for C1: the handler `f(a *A, b *A)` builds a graph with the single pair
`*A ↦ 0`, one record of type `*A` serving both parameters. -/
theorem single_entry_per_type_witness :
    WellBehaved demo ∧
    (newDependencies demo RangeOrder.id 1 ⟨[tA, tA], []⟩ ()).map
      (fun b => (b.graph.map (fun g => g.entries), b.heap))
      = some (some [⟨tA, 0⟩], [⟨⟨tA, some 0⟩, none⟩]) ∧
    ∀ k1 k2 p1 p2 d1 d2,
      (AList.singleton tA 0 : dependencies).lookup k1 = some p1 →
      (AList.singleton tA 0 : dependencies).lookup k2 = some p2 →
      [(⟨⟨tA, some 0⟩, none⟩ : dependency)].get? p1 = some d1 →
      [(⟨⟨tA, some 0⟩, none⟩ : dependency)].get? p2 = some d2 →
      d1.Value.typ = d2.Value.typ → p1 = p2 :=
  ⟨demo_wellBehaved, by decide,
    (single_entry_per_type demo RangeOrder.id demo_wellBehaved 1 ⟨[tA, tA], []⟩ ()
      ⟨some (AList.singleton tA 0), none, [⟨⟨tA, some 0⟩, none⟩], ()⟩ (AList.singleton tA 0)
      rfl rfl).2⟩

/-- For an interface `t`, the test `isType` through a pointer is `Implements` on the
type of the record it points to. -/
theorem isTypeAt_iface (env : Env ρ) (heap : List dependency) (t : RType) (e : Entry)
    (hk : t.Kind = Kind.Interface) :
    isTypeAt env heap t e = true ↔
      ∃ d, heap.get? e.2 = some d ∧ env.Implements d.Value.typ t = true := by
  unfold isTypeAt
  cases hd : heap.get? e.2 with
  | none => simp
  | some d => simp [dependency.isType, hk]

/-- C2. Interface re-use: when the interface `I` is not yet a key and the record of some
pair of the map has a type implementing `I`, `vaueOf(I)` returns a pointer `p` that was
already stored in the map and whose record implements `I`, binds `I` to `p`, leaves the
set of stored pointers as it was, and the loop of `scanDependencies` goes on to the next
input with the heap and the pool untouched. -/
theorem interface_reuse (env : Env ρ) (ord : RangeOrder) (heap : List dependency)
    (ds : dependencies) (I : RType) (hk : I.Kind = Kind.Interface)
    (hl : ds.lookup I = none)
    (hex : ∃ k p d, ds.lookup k = some p ∧ heap.get? p = some d ∧
      env.Implements d.Value.typ I = true) :
    ∃ p, dependencies.vaueOf env ord heap ds I = (some p, ds.insert I p) ∧
      (∃ k, ds.lookup k = some p) ∧
      (∃ d, heap.get? p = some d ∧ env.Implements d.Value.typ I = true) ∧
      (ds.insert I p).lookup I = some p ∧
      (∀ q, (∃ k, (ds.insert I p).lookup k = some q) ↔ (∃ k, ds.lookup k = some q)) ∧
      ∀ (self : reflect.Method → State ρ → Option (Option Err × State ρ))
        (rest : List RType) (pool : ρ),
        scanLoop env ord self (I :: rest) ⟨heap, ds, pool⟩
          = scanLoop env ord self rest ⟨heap, ds.insert I p, pool⟩ := by
  rcases vaueOf_cases env ord heap ds I with ⟨d, hd, -⟩ | ⟨e, -, hf, hv⟩ | ⟨-, hf, -⟩
  · rw [hl] at hd; simp at hd
  · obtain ⟨hmem, hty⟩ := find_some_spec env ord heap ds I e hf
    have hle : ds.lookup e.1 = some e.2 := AList.mem_lookup_iff.mpr hmem
    refine ⟨e.2, hv, ⟨e.1, hle⟩, (isTypeAt_iface env heap I e hk).mp hty,
      AList.lookup_insert ds, ?_, ?_⟩
    · intro q
      constructor
      · rintro ⟨k, hq⟩
        by_cases hkI : k = I
        · subst hkI
          rw [AList.lookup_insert] at hq
          simp only [Option.some.injEq] at hq
          exact ⟨e.1, by rw [← hq]; exact hle⟩
        · rw [AList.lookup_insert_ne hkI] at hq
          exact ⟨k, hq⟩
      · rintro ⟨k, hq⟩
        have hkI : k ≠ I := by
          intro h; rw [h, hl] at hq; simp at hq
        exact ⟨k, by rw [AList.lookup_insert_ne hkI]; exact hq⟩
    · intro self rest pool
      rw [scanLoop]
      simp only [hv]
  · obtain ⟨k, p, d, hkp, hd, himp⟩ := hex
    have hmem : (⟨k, p⟩ : Entry) ∈ ds.entries := AList.mem_lookup_iff.mp hkp
    have hno := find_none_spec env ord heap ds I hf _ hmem
    have hyes := (isTypeAt_iface env heap I ⟨k, p⟩ hk).mpr ⟨d, hd, himp⟩
    rw [hyes] at hno
    simp at hno

/-- Witness for C2: in the map `*Impl ↦ 0` the interface `B` is resolved by the record
at address `0`. -/
theorem interface_reuse_witness :
    ∃ p, dependencies.vaueOf demo RangeOrder.id [⟨⟨tImpl, some 1⟩, none⟩]
        (AList.singleton tImpl 0) tB = (some p, (AList.singleton tImpl 0).insert tB p) ∧
      (∃ k, (AList.singleton tImpl 0 : dependencies).lookup k = some p) ∧
      (∃ d, [(⟨⟨tImpl, some 1⟩, none⟩ : dependency)].get? p = some d ∧
        demo.Implements d.Value.typ tB = true) ∧
      ((AList.singleton tImpl 0 : dependencies).insert tB p).lookup tB = some p ∧
      (∀ q, (∃ k, ((AList.singleton tImpl 0 : dependencies).insert tB p).lookup k = some q) ↔
        (∃ k, (AList.singleton tImpl 0 : dependencies).lookup k = some q)) ∧
      ∀ (self : reflect.Method → State Unit → Option (Option Err × State Unit))
        (rest : List RType) (pool : Unit),
        scanLoop demo RangeOrder.id self (tB :: rest)
            ⟨[⟨⟨tImpl, some 1⟩, none⟩], AList.singleton tImpl 0, pool⟩
          = scanLoop demo RangeOrder.id self rest
            ⟨[⟨⟨tImpl, some 1⟩, none⟩], (AList.singleton tImpl 0).insert tB p, pool⟩ :=
  interface_reuse demo RangeOrder.id [⟨⟨tImpl, some 1⟩, none⟩] (AList.singleton tImpl 0) tB
    rfl (by decide) ⟨tImpl, 0, ⟨⟨tImpl, some 1⟩, none⟩, by decide, rfl, by decide⟩

/-- A key stays a key when another one is bound. -/
theorem lookup_insert_isSome (ds : dependencies) (k t : RType) (p q : Ptr)
    (h : ds.lookup k = some p) : ∃ p1, (ds.insert t q).lookup k = some p1 := by
  by_cases hkt : k = t
  · subst hkt; exact ⟨q, AList.lookup_insert ds⟩
  · exact ⟨p, by rw [AList.lookup_insert_ne hkt]; exact h⟩

/-- Appending a record leaves the records below as they are. -/
theorem get_append_old (heap : List dependency) (x : dependency) (p : Ptr) (d : dependency)
    (h : heap.get? p = some d) : (heap ++ [x]).get? p = some d := by
  have hlt : p < heap.length := by
    rw [List.get?_eq_getElem?] at h
    exact (List.getElem?_eq_some_iff.mp h).1
  rw [List.get?_eq_getElem?, List.getElem?_append_left hlt, ← List.get?_eq_getElem?]
  exact h

/-- Right after `add`, the type of the new record is an own-typed key. -/
theorem ownAt_added (s : State ρ) (v : reflect.Value) (pool1 : ρ) :
    OwnAt v.typ (s.added v pool1) :=
  ⟨s.heap.length, ⟨v, none⟩, by simp [State.added], by simp [State.added], rfl⟩

/-- An own-typed key stays own-typed through every run. -/
theorem Scan.ownAt (env : Env ρ) (ord : RangeOrder) (c : RType)
    {ins : List RType} {s : State ρ} {r : Option Err} {s1 : State ρ}
    (h : Scan env ord ins s r s1) : OwnAt c s → OwnAt c s1 := by
  refine Scan.invariant env ord (OwnAt c) ?_ ?_ ?_ ?_ h
  · rintro s t e hl - - ⟨p, d, hp, hd, hc⟩
    have hne : c ≠ t := by
      intro heq; rw [heq, hl] at hp; simp at hp
    exact ⟨p, d, by simp only; rw [AList.lookup_insert_ne hne]; exact hp, hd, hc⟩
  · rintro s t err pool1 - hp; exact hp
  · rintro s t v pool1 - - - - - ⟨p, d, hp, hd, hc⟩
    by_cases hcv : c = v.typ
    · subst hcv
      exact ownAt_added s v pool1
    · exact ⟨p, d, by simp only [State.added]; rw [AList.lookup_insert_ne hcv]; exact hp,
        get_append_old s.heap _ p d hd, hc⟩
  · rintro s d init ⟨p, x, hp, hx, hc⟩
    obtain ⟨y, hy, hv⟩ := setMethod_get_some s.heap d init p x hx
    exact ⟨p, y, hp, hy, by rw [hv]; exact hc⟩

/-- A key stays a key through every run. -/
theorem Scan.key_mono (env : Env ρ) (ord : RangeOrder) (k : RType)
    {ins : List RType} {s : State ρ} {r : Option Err} {s1 : State ρ}
    (h : Scan env ord ins s r s1) :
    (∃ p, s.ds.lookup k = some p) → ∃ p, s1.ds.lookup k = some p := by
  refine Scan.invariant env ord (fun s => ∃ p, s.ds.lookup k = some p) ?_ ?_ ?_ ?_ h
  · rintro s t e - - - ⟨p, hp⟩
    exact lookup_insert_isSome s.ds k t p e.2 hp
  · rintro s t err pool1 - hp; exact hp
  · rintro s t v pool1 - - - - - ⟨p, hp⟩
    exact lookup_insert_isSome s.ds k v.typ p s.heap.length hp
  · rintro s d init hp; exact hp

/-- A resolved input stays resolved through every run. -/
theorem Scan.resolved_mono (env : Env ρ) (ord : RangeOrder) (T : RType)
    {ins : List RType} {s : State ρ} {r : Option Err} {s1 : State ρ}
    (h : Scan env ord ins s r s1) : Resolved env T s → Resolved env T s1 := by
  rintro (hk | ⟨pool, v, pool1, hval, hv, hown⟩)
  · exact Or.inl (Scan.key_mono env ord T h hk)
  · exact Or.inr ⟨pool, v, pool1, hval, hv, Scan.ownAt env ord v.typ h hown⟩

/-- Assigning `Method` keeps an own-typed key. -/
theorem ownAt_setMethod (c : RType) (s : State ρ) (d : Ptr) (init : reflect.Method)
    (h : OwnAt c s) : OwnAt c { s with heap := setMethod s.heap d init } := by
  obtain ⟨p, x, hp, hx, hc⟩ := h
  obtain ⟨y, hy, hv⟩ := setMethod_get_some s.heap d init p x hx
  exact ⟨p, y, hp, hy, by rw [hv]; exact hc⟩

/-- Assigning `Method` keeps a resolved input resolved. -/
theorem resolved_setMethod (env : Env ρ) (T : RType) (s : State ρ) (d : Ptr)
    (init : reflect.Method) (h : Resolved env T s) :
    Resolved env T { s with heap := setMethod s.heap d init } := by
  rcases h with hk | ⟨pool, v, pool1, hval, hv, hown⟩
  · exact Or.inl hk
  · exact Or.inr ⟨pool, v, pool1, hval, hv, ownAt_setMethod v.typ s d init hown⟩

/-- After a run that returned nil, every input that is not a context type is resolved. -/
theorem Scan.inputs_resolved (env : Env ρ) (ord : RangeOrder)
    {ins : List RType} {s : State ρ} {r : Option Err} {s1 : State ρ}
    (h : Scan env ord ins s r s1) :
    r = none → ∀ T ∈ ins, env.isContextType T = false → Resolved env T s1 := by
  induction h with
  | done s => intro _ T hT; simp at hT
  | hit s t rest d r s1 hl hrest ih =>
    intro hr T hT hc
    rcases List.mem_cons.mp hT with rfl | hT
    · exact Scan.resolved_mono env ord T hrest (Or.inl ⟨d, hl⟩)
    · exact ih hr T hT hc
  | reindex s t rest e r s1 hl hf hrest ih =>
    intro hr T hT hc
    rcases List.mem_cons.mp hT with rfl | hT
    · exact Scan.resolved_mono env ord T hrest (Or.inl ⟨e.2, AList.lookup_insert s.ds⟩)
    · exact ih hr T hT hc
  | context s t rest r s1 hl hf hc _ ih =>
    intro hr T hT hcT
    rcases List.mem_cons.mp hT with rfl | hT
    · rw [hc] at hcT; simp at hcT
    · exact ih hr T hT hcT
  | invalid s t rest err hl hf hc hv => intro hr; simp at hr
  | poolError s t rest err pool1 hl hf hc hv hp => intro hr; simp at hr
  | noInit s t rest v pool1 r s1 hl hf hc hv hp hi hrest ih =>
    intro hr T hT hcT
    rcases List.mem_cons.mp hT with rfl | hT
    · exact Scan.resolved_mono env ord T hrest
        (Or.inr ⟨s.pool, v, pool1, hv, hp, ownAt_added s v pool1⟩)
    · exact ih hr T hT hcT
  | badInit s t rest v pool1 init err hl hf hc hv hp hi hb => intro hr; simp at hr
  | initError s t rest v pool1 init err s2 hl hf hc hv hp hi hb _ ih => intro hr; simp at hr
  | initDone s t rest v pool1 init s2 r s1 hl hf hc hv hp hi hb hinit hrest _ ih2 =>
    intro hr T hT hcT
    rcases List.mem_cons.mp hT with rfl | hT
    · have h1 : Resolved env T (s.added v pool1) :=
        Or.inr ⟨s.pool, v, pool1, hv, hp, ownAt_added s v pool1⟩
      have h2 := Scan.resolved_mono env ord T hinit h1
      exact Scan.resolved_mono env ord T hrest (resolved_setMethod env T s2 _ init h2)
    · exact ih2 hr T hT hcT

/-- C3, as stated, fails: for `f(a *A, b B)`, with the pool resolving the interface `B`
to a value of type `*Impl`, the build succeeds with the keys `*Impl` and `*A`; the
parameter type `B` is not a context type and is not a key. -/
theorem param_is_key_counterexample :
    (newDependencies demo RangeOrder.id 1 ⟨[tA, tB], []⟩ ()).map
      (fun b => (b.graph.map (fun g => (g.entries, g.lookup tB)), b.err))
      = some (some ([⟨tImpl, 1⟩, ⟨tA, 0⟩], none), none) ∧
    demo.isContextType tB = false := by
  decide

/-- C3, amended. On success every parameter type `T` that is not a context type is
resolved in the returned graph: `T` is a key, or the pool returned for `T` a value whose
type (not `T`) is a key, bound to a record of that type. Every key is bound to a record
of the heap. -/
theorem params_resolved (env : Env ρ) (ord : RangeOrder) (fuel : Nat) (m : reflect.Method)
    (r : ρ) (b : Built ρ) (g : dependencies)
    (hb : newDependencies env ord fuel m r = some b) (hg : b.graph = some g) :
    ∀ T ∈ m.ins, env.isContextType T = false →
      (∃ p, g.lookup T = some p) ∨
      ∃ pool v pool1, env.valueOf pool T = (.ok v, pool1) ∧
        ∃ p d, g.lookup v.typ = some p ∧ b.heap.get? p = some d ∧ d.Value.typ = v.typ := by
  intro T hT hc
  have hscan := (newDependencies_ok env ord fuel m r b g hb hg).1
  rcases Scan.inputs_resolved env ord hscan rfl T hT hc with hk | ⟨pool, v, pool1, -, hv, ho⟩
  · exact Or.inl hk
  · exact Or.inr ⟨pool, v, pool1, hv, ho⟩

/-- Witness for C3 amended: in the graph of `f(a *A, b B)` the parameter `*A` is a key,
and `B` is resolved by the record stored under `*Impl`. -/
theorem params_resolved_witness :
    ((∃ p, ((AList.singleton tA 0 : dependencies).insert tImpl 1).lookup tA = some p) ∨
      ∃ pool v pool1, demo.valueOf pool tA = (.ok v, pool1) ∧
        ∃ p d, ((AList.singleton tA 0 : dependencies).insert tImpl 1).lookup v.typ = some p ∧
          [(⟨⟨tA, some 0⟩, none⟩ : dependency), ⟨⟨tImpl, some 1⟩, none⟩].get? p = some d ∧
          d.Value.typ = v.typ) ∧
    ((∃ p, ((AList.singleton tA 0 : dependencies).insert tImpl 1).lookup tB = some p) ∨
      ∃ pool v pool1, demo.valueOf pool tB = (.ok v, pool1) ∧
        ∃ p d, ((AList.singleton tA 0 : dependencies).insert tImpl 1).lookup v.typ = some p ∧
          [(⟨⟨tA, some 0⟩, none⟩ : dependency), ⟨⟨tImpl, some 1⟩, none⟩].get? p = some d ∧
          d.Value.typ = v.typ) :=
  ⟨params_resolved demo RangeOrder.id 1 ⟨[tA, tB], []⟩ ()
      ⟨some ((AList.singleton tA 0).insert tImpl 1), none,
        [⟨⟨tA, some 0⟩, none⟩, ⟨⟨tImpl, some 1⟩, none⟩], ()⟩
      ((AList.singleton tA 0).insert tImpl 1) rfl rfl tA (by simp) (by decide),
    params_resolved demo RangeOrder.id 1 ⟨[tA, tB], []⟩ ()
      ⟨some ((AList.singleton tA 0).insert tImpl 1), none,
        [⟨⟨tA, some 0⟩, none⟩, ⟨⟨tImpl, some 1⟩, none⟩], ()⟩
      ((AList.singleton tA 0).insert tImpl 1) rfl rfl tB (by simp) (by decide)⟩

/-- The loop never passes a context type to the pool: replacing the pool method by one
that agrees with it on all other types does not change the loop. -/
theorem scanLoop_withValueOf (env : Env ρ) (ord : RangeOrder)
    (f : ρ → RType → Except Err reflect.Value × ρ)
    (hf : ∀ r t, env.isContextType t = false → f r t = env.valueOf r t)
    (self : reflect.Method → State ρ → Option (Option Err × State ρ)) :
    ∀ ins s, scanLoop (env.withValueOf f) ord self ins s = scanLoop env ord self ins s := by
  intro ins
  induction ins with
  | nil => intro s; rfl
  | cons input rest ih =>
    intro s
    rw [scanLoop, scanLoop]
    have hv : dependencies.vaueOf (env.withValueOf f) ord s.heap s.ds input
        = dependencies.vaueOf env ord s.heap s.ds input := rfl
    rw [hv]
    rcases hres : dependencies.vaueOf env ord s.heap s.ds input with ⟨found, ds1⟩
    cases found with
    | some d => exact ih _
    | none =>
      simp only
      have hctx : (env.withValueOf f).isContextType input = env.isContextType input := rfl
      rw [hctx]
      cases hc : env.isContextType input with
      | true => simp only [if_true]; exact ih _
      | false =>
        simp only [Bool.false_eq_true, if_false]
        have hnd : newDependency (env.withValueOf f) input s.heap s.pool
            = newDependency env input s.heap s.pool := by
          unfold newDependency
          have : (env.withValueOf f).valueOf s.pool input = env.valueOf s.pool input :=
            hf s.pool input hc
          rw [this]
        rw [hnd]
        rcases newDependency env input s.heap s.pool with ⟨res, heap1, pool1⟩
        cases res with
        | error err => rfl
        | ok d =>
          simp only
          have hm : (env.withValueOf f).MethodByNameInit = env.MethodByNameInit := rfl
          rw [hm]
          cases (heap1.get? d).bind (fun dep => env.MethodByNameInit dep.Value.typ) with
          | none => exact ih _
          | some init =>
            simp only
            have hvi : (env.withValueOf f).isValidInit = env.isValidInit := rfl
            rw [hvi]
            cases env.isValidInit init with
            | some err => rfl
            | none =>
              simp only
              cases self init ⟨heap1, dependencies.add heap1 ds1 d, pool1⟩ with
              | none => rfl
              | some res2 =>
                rcases res2 with ⟨r2, s2⟩
                cases r2 with
                | some err => rfl
                | none => exact ih _

/-- The scan never passes a context type to the pool. -/
theorem scanDependencies_withValueOf (env : Env ρ) (ord : RangeOrder)
    (f : ρ → RType → Except Err reflect.Value × ρ)
    (hf : ∀ r t, env.isContextType t = false → f r t = env.valueOf r t) :
    ∀ fuel m s, scanDependencies (env.withValueOf f) ord fuel m s
      = scanDependencies env ord fuel m s := by
  intro fuel
  induction fuel with
  | zero => intro m s; rfl
  | succ n ih =>
    intro m s
    rw [scanDependencies, scanDependencies]
    have : scanDependencies (env.withValueOf f) ord n = scanDependencies env ord n := by
      funext m s; exact ih m s
    rw [this]
    exact scanLoop_withValueOf env ord f hf _ m.ins s

/-- C4. Context types are never keys: the code breaks this. For `f(a *W, b RW)`, where
`*W` implements the context interface `RW`, the lookup `vaueOf(RW)` runs before the
test `isContextType` and binds the context type `RW` to the record of `*W`, although
the comment at the test says such a type need not be mapped as a dependency. With the
parameters in the other order, `f(b RW, a *W)`, the same context type is skipped and
the graph has the key `*W` only. -/
theorem context_type_becomes_key :
    demo.isContextType tRW = true ∧
    (newDependencies demo RangeOrder.id 1 ⟨[tW, tRW], []⟩ ()).map
      (fun b => (b.graph.map (fun g => (g.entries, g.lookup tRW)), b.err))
      = some (some ([⟨tRW, 0⟩, ⟨tW, 0⟩], some 0), none) ∧
    (newDependencies demo RangeOrder.id 1 ⟨[tRW, tW], []⟩ ()).map
      (fun b => (b.graph.map (fun g => (g.entries, g.lookup tRW)), b.err))
      = some (some ([⟨tW, 0⟩], none), none) :=
  ⟨by decide, by decide, by decide⟩

/-- Every run keeps each key bound to a record that satisfies it. -/
theorem Scan.keySatisfied (env : Env ρ) (ord : RangeOrder)
    {ins : List RType} {s : State ρ} {r : Option Err} {s1 : State ρ}
    (h : Scan env ord ins s r s1) : KeySatisfied env s → KeySatisfied env s1 := by
  refine Scan.invariant env ord (KeySatisfied env) ?_ ?_ ?_ ?_ h
  · intro s t e hl he hty hp k p hk
    by_cases hkt : k = t
    · subst hkt
      simp only [AList.lookup_insert, Option.some.injEq] at hk
      subst hk
      unfold isTypeAt at hty
      cases hd : s.heap.get? e.2 with
      | none => rw [hd] at hty; simp at hty
      | some d =>
        rw [hd] at hty
        exact ⟨d, rfl, Or.inr hty⟩
    · simp only [AList.lookup_insert_ne hkt] at hk
      exact hp k p hk
  · intro s t err pool1 _ hp; exact hp
  · intro s t v pool1 _ _ _ _ _ hp k p hk
    simp only [State.added] at hk ⊢
    by_cases hkt : k = v.typ
    · subst hkt
      simp only [AList.lookup_insert, Option.some.injEq] at hk
      subst hk
      exact ⟨⟨v, none⟩, by simp, Or.inl rfl⟩
    · simp only [AList.lookup_insert_ne hkt] at hk
      obtain ⟨d, hd, hsat⟩ := hp k p hk
      exact ⟨d, get_append_old s.heap _ p d hd, hsat⟩
  · intro s d init hp k p hk
    obtain ⟨x, hx, hsat⟩ := hp k p hk
    obtain ⟨y, hy, hv⟩ := setMethod_get_some s.heap d init p x hx
    refine ⟨y, hy, ?_⟩
    rcases hsat with h1 | h1
    · exact Or.inl (by rw [hv]; exact h1)
    · exact Or.inr (by simpa [dependency.isType, hv] using h1)

/-- After a run that returned nil, every input that the type check rejects and that is
not a context type is a key: it was found by `vaueOf`. -/
theorem Scan.invalid_is_key (env : Env ρ) (ord : RangeOrder) (T : RType) (err : Err)
    (hT : isValidDependencyType T = some err) (hcT : env.isContextType T = false)
    {ins : List RType} {s : State ρ} {r : Option Err} {s1 : State ρ}
    (h : Scan env ord ins s r s1) :
    r = none → T ∈ ins → ∃ p, s1.ds.lookup T = some p := by
  induction h with
  | done s => intro _ hm; simp at hm
  | hit s t rest d r s1 hl hrest ih =>
    intro hr hm
    rcases List.mem_cons.mp hm with rfl | hm
    · exact Scan.key_mono env ord T hrest ⟨d, hl⟩
    · exact ih hr hm
  | reindex s t rest e r s1 hl hf hrest ih =>
    intro hr hm
    rcases List.mem_cons.mp hm with rfl | hm
    · exact Scan.key_mono env ord T hrest ⟨e.2, AList.lookup_insert s.ds⟩
    · exact ih hr hm
  | context s t rest r s1 hl hf hc _ ih =>
    intro hr hm
    rcases List.mem_cons.mp hm with rfl | hm
    · rw [hc] at hcT; simp at hcT
    · exact ih hr hm
  | invalid s t rest err hl hf hc hv => intro hr; simp at hr
  | poolError s t rest err pool1 hl hf hc hv hp => intro hr; simp at hr
  | noInit s t rest v pool1 r s1 hl hf hc hv hp hi hrest ih =>
    intro hr hm
    rcases List.mem_cons.mp hm with rfl | hm
    · rw [hv] at hT; simp at hT
    · exact ih hr hm
  | badInit s t rest v pool1 init err hl hf hc hv hp hi hb => intro hr; simp at hr
  | initError s t rest v pool1 init err s2 hl hf hc hv hp hi hb _ ih => intro hr; simp at hr
  | initDone s t rest v pool1 init s2 r s1 hl hf hc hv hp hi hb hinit hrest _ ih2 =>
    intro hr hm
    rcases List.mem_cons.mp hm with rfl | hm
    · rw [hv] at hT; simp at hT
    · exact ih2 hr hm

/-- The empty map satisfies every key. -/
theorem keySatisfied_empty (env : Env ρ) (r : ρ) :
    KeySatisfied env (⟨[], ∅, r⟩ : State ρ) := by
  intro k p hk
  simp at hk

/-- The type check rejects no interface. -/
theorem invalid_not_iface (T : RType) (err : Err) (hT : isValidDependencyType T = some err) :
    T.Kind ≠ Kind.Interface := by
  cases T <;> simp_all [isValidDependencyType, RType.Kind]

/-- C5, as stated, fails: for `f(a *S, b S)` the bare struct parameter `S`, which
`isValidDependencyType` rejects and which is not a context type, is found by `vaueOf`
in the record of `*S` (whose type is `ptrOfType(S)`), and the build succeeds. -/
theorem invalid_shape_counterexample :
    (newDependencies demo RangeOrder.id 1 ⟨[tA, tS], []⟩ ()).map
      (fun b => (b.graph.map (fun g => g.entries), b.err))
      = some (some [⟨tS, 0⟩, ⟨tA, 0⟩], none) ∧
    isValidDependencyType tS = some (Err.InvalidDependencyType tS) ∧
    demo.isContextType tS = false ∧ demo.ptrOfType tS = tA := by
  decide

/-- C5, amended. Let `T` be a type that `isValidDependencyType` rejects and that is not a
context type. A method whose first input is `T` always gets the error of the type check
and no graph. A method with `T` among its inputs gets a graph only when `vaueOf` found
`T`: then `T` is a key of the graph, bound to a record whose `Value` has the type
`ptrOfType(T)` or `T`. -/
theorem invalid_shape_rejected (env : Env ρ) (ord : RangeOrder) (T : RType) (err : Err)
    (hT : isValidDependencyType T = some err) (hcT : env.isContextType T = false) :
    (∀ fuel rest outs r,
      newDependencies env ord (fuel + 1) ⟨T :: rest, outs⟩ r = some ⟨none, some err, [], r⟩) ∧
    ∀ fuel m r b g, T ∈ m.ins → newDependencies env ord fuel m r = some b →
      b.graph = some g →
      ∃ p d, g.lookup T = some p ∧ b.heap.get? p = some d ∧
        (d.Value.typ = env.ptrOfType T ∨ d.Value.typ = T) := by
  refine ⟨?_, ?_⟩
  · intro fuel rest outs r
    have he : ord.enum T [] = [] := (ord.perm T []).eq_nil
    simp [newDependencies, scanDependencies, scanLoop, dependencies.vaueOf, hcT,
      newDependency, hT, he]
  · intro fuel m r b g hm hb hg
    have hscan := (newDependencies_ok env ord fuel m r b g hb hg).1
    obtain ⟨p, hp⟩ := Scan.invalid_is_key env ord T err hT hcT hscan rfl hm
    obtain ⟨d, hd, hsat⟩ :=
      Scan.keySatisfied env ord hscan (keySatisfied_empty env r) T p hp
    refine ⟨p, d, hp, hd, ?_⟩
    rcases hsat with h1 | h1
    · exact Or.inr h1
    · left
      have hk := invalid_not_iface T err hT
      simpa [dependency.isType, hk] using h1

/-- Witness for C5 amended: the bare struct `S` in the example program; `f(b S)` is
rejected, and in the graph of `f(a *S, b S)` the key `S` is bound to the record of
`*S`. -/
theorem invalid_shape_rejected_witness :
    (∀ fuel rest outs r,
      newDependencies demo RangeOrder.id (fuel + 1) ⟨tS :: rest, outs⟩ r
        = some ⟨none, some (Err.InvalidDependencyType tS), [], r⟩) ∧
    ∀ fuel m r b g, tS ∈ m.ins → newDependencies demo RangeOrder.id fuel m r = some b →
      b.graph = some g →
      ∃ p d, g.lookup tS = some p ∧ b.heap.get? p = some d ∧
        (d.Value.typ = demo.ptrOfType tS ∨ d.Value.typ = tS) :=
  invalid_shape_rejected demo RangeOrder.id tS (Err.InvalidDependencyType tS)
    (by decide) (by decide)

/-- Binding a new key keeps an own-typed key. -/
theorem ownAt_insert (c t : RType) (q : Ptr) (s : State ρ) (hl : s.ds.lookup t = none)
    (h : OwnAt c s) : OwnAt c { s with ds := s.ds.insert t q } := by
  obtain ⟨p, d, hp, hd, hc⟩ := h
  have hne : c ≠ t := by
    intro heq; rw [heq, hl] at hp; simp at hp
  exact ⟨p, d, by simp only; rw [AList.lookup_insert_ne hne]; exact hp, hd, hc⟩

/-- Storing a new record keeps an own-typed key. -/
theorem ownAt_added_mono (c : RType) (s : State ρ) (v : reflect.Value) (pool1 : ρ)
    (h : OwnAt c s) : OwnAt c (s.added v pool1) := by
  obtain ⟨p, d, hp, hd, hc⟩ := h
  by_cases hcv : c = v.typ
  · subst hcv
    exact ownAt_added s v pool1
  · exact ⟨p, d, by simp only [State.added]; rw [AList.lookup_insert_ne hcv]; exact hp,
      get_append_old s.heap _ p d hd, hc⟩

/-- Binding a new key keeps a resolved input resolved. -/
theorem resolved_insert (env : Env ρ) (T t : RType) (q : Ptr) (s : State ρ)
    (hl : s.ds.lookup t = none) (h : Resolved env T s) :
    Resolved env T { s with ds := s.ds.insert t q } := by
  rcases h with ⟨p, hp⟩ | ⟨pool, v, pool1, hval, hv, hown⟩
  · exact Or.inl (lookup_insert_isSome s.ds T t p q hp)
  · exact Or.inr ⟨pool, v, pool1, hval, hv, ownAt_insert v.typ t q s hl hown⟩

/-- Storing a new record keeps a resolved input resolved. -/
theorem resolved_added (env : Env ρ) (T : RType) (s : State ρ) (v : reflect.Value)
    (pool1 : ρ) (h : Resolved env T s) : Resolved env T (s.added v pool1) := by
  rcases h with ⟨p, hp⟩ | ⟨pool, w, pool2, hval, hv, hown⟩
  · exact Or.inl (lookup_insert_isSome s.ds T v.typ p s.heap.length hp)
  · exact Or.inr ⟨pool, w, pool2, hval, hv, ownAt_added_mono w.typ s v pool1 hown⟩

/-- A closed record stays closed in a state with the same record at its address in
which the resolved inputs are still resolved. -/
theorem InitClosed.mono (env : Env ρ) (s s1 : State ρ) (p : Ptr)
    (hrec : s1.heap.get? p = s.heap.get? p)
    (hres : ∀ T, Resolved env T s → Resolved env T s1)
    (h : InitClosed env s p) : InitClosed env s1 p := by
  intro d hd init hi
  rw [hrec] at hd
  obtain ⟨h1, h2⟩ := h d hd init hi
  exact ⟨h1, fun T hT hc => hres T (h2 T hT hc)⟩

/-- The heap never shrinks during a run. -/
theorem Scan.heap_length (env : Env ρ) (ord : RangeOrder)
    {ins : List RType} {s : State ρ} {r : Option Err} {s1 : State ρ}
    (h : Scan env ord ins s r s1) : s.heap.length ≤ s1.heap.length := by
  have := Scan.invariant env ord (fun x => s.heap.length ≤ x.heap.length)
    (fun _ _ _ _ _ _ hp => hp) (fun _ _ _ _ _ hp => hp)
    (fun x _ v _ _ _ _ _ _ hp => by simp only [State.added, List.length_append] at hp ⊢; omega)
    (fun x d init hp => by simp only [setMethod, List.length_modify]; exact hp) h
  exact this (Nat.le_refl _)

/-- A run never changes the `Value` of a record. -/
theorem Scan.value_kept (env : Env ρ) (ord : RangeOrder) (p : Ptr) (v : reflect.Value)
    {ins : List RType} {s : State ρ} {r : Option Err} {s1 : State ρ}
    (h : Scan env ord ins s r s1) :
    (∃ x, s.heap.get? p = some x ∧ x.Value = v) →
      ∃ y, s1.heap.get? p = some y ∧ y.Value = v := by
  refine Scan.invariant env ord (fun s => ∃ y, s.heap.get? p = some y ∧ y.Value = v)
    ?_ ?_ ?_ ?_ h
  · intro s t e _ _ _ hp; exact hp
  · intro s t err pool1 _ hp; exact hp
  · rintro s t w pool1 _ _ _ _ _ ⟨y, hy, hv⟩
    exact ⟨y, get_append_old s.heap _ p y hy, hv⟩
  · rintro s d init ⟨x, hx, hv⟩
    obtain ⟨y, hy, hyv⟩ := setMethod_get_some s.heap d init p x hx
    exact ⟨y, hy, by rw [hyv]; exact hv⟩

/-- Assigning `Method` at another address leaves the record as it is. -/
theorem setMethod_get_ne (heap : List dependency) (d : Ptr) (init : reflect.Method) (p : Ptr)
    (h : d ≠ p) : (setMethod heap d init).get? p = heap.get? p := by
  simp only [setMethod, List.get?_eq_getElem?]
  exact List.getElem?_modify_ne _ heap h

/-- Assigning `Method` at an address gives the record there that method. -/
theorem setMethod_get_eq (heap : List dependency) (d : Ptr) (init : reflect.Method)
    (x : dependency) (h : heap.get? d = some x) :
    (setMethod heap d init).get? d = some { x with Method := some (newMethod init) } := by
  rw [List.get?_eq_getElem?] at h
  simp only [setMethod, List.get?_eq_getElem?, List.getElem?_modify_eq, h]
  rfl

/-- After a run that returned nil, every record outside the set `A` of records whose
initializer is still being scanned is closed, when this held before. -/
theorem Scan.initClosed (env : Env ρ) (ord : RangeOrder)
    {ins : List RType} {s : State ρ} {r : Option Err} {s1 : State ρ}
    (h : Scan env ord ins s r s1) :
    r = none → ∀ A : Ptr → Prop,
      (∀ p, p < s.heap.length → ¬ A p → InitClosed env s p) →
      ∀ p, p < s1.heap.length → ¬ A p → InitClosed env s1 p := by
  induction h with
  | done s => intro _ A h0; exact h0
  | hit s t rest d r s1 hl _ ih => exact ih
  | reindex s t rest e r s1 hl hf _ ih =>
    intro hr A h0
    refine ih hr A ?_
    intro p hp hA
    exact InitClosed.mono env s _ p rfl (fun T => resolved_insert env T t e.2 s hl) (h0 p hp hA)
  | context s t rest r s1 hl hf hc _ ih => exact ih
  | invalid s t rest err hl hf hc hv => intro hr; simp at hr
  | poolError s t rest err pool1 hl hf hc hv hp => intro hr; simp at hr
  | noInit s t rest v pool1 r s1 hl hf hc hv hp hi _ ih =>
    intro hr A h0
    refine ih hr A ?_
    intro p hp hA
    simp only [State.added, List.length_append, List.length_singleton] at hp
    by_cases hpl : p < s.heap.length
    · refine InitClosed.mono env s _ p ?_ (fun T => resolved_added env T s v pool1) (h0 p hpl hA)
      simp only [State.added, List.get?_eq_getElem?]
      exact List.getElem?_append_left hpl
    · have hpe : p = s.heap.length := by omega
      subst hpe
      intro d hd init hinit
      simp [State.added] at hd
      rw [← hd] at hinit
      simp only at hinit
      rw [hi] at hinit; simp at hinit
  | badInit s t rest v pool1 init err hl hf hc hv hp hi hb => intro hr; simp at hr
  | initError s t rest v pool1 init err s2 hl hf hc hv hp hi hb _ ih => intro hr; simp at hr
  | initDone s t rest v pool1 init s2 r s1 hl hf hc hv hp hi hb hinit hrest ih1 ih2 =>
    intro hr A h0
    refine ih2 hr A ?_
    have h1 := ih1 rfl (fun p => A p ∨ p = s.heap.length) (by
      intro p hp hA
      simp only [State.added, List.length_append, List.length_singleton] at hp
      have hne : p ≠ s.heap.length := fun h => hA (Or.inr h)
      have hA1 : ¬ A p := fun h => hA (Or.inl h)
      have hpl : p < s.heap.length := by omega
      refine InitClosed.mono env s _ p ?_ (fun T => resolved_added env T s v pool1)
        (h0 p hpl hA1)
      simp only [State.added, List.get?_eq_getElem?]
      exact List.getElem?_append_left hpl)
    intro p hp hA
    simp only [setMethod, List.length_modify] at hp
    by_cases hpe : p = s.heap.length
    · subst hpe
      intro d hd init1 hinit1
      obtain ⟨y, hy, hyv⟩ := Scan.value_kept env ord s.heap.length v hinit
        ⟨⟨v, none⟩, by simp [State.added], rfl⟩
      simp only at hd
      rw [setMethod_get_eq s2.heap s.heap.length init y hy] at hd
      simp only [Option.some.injEq] at hd
      subst hd
      simp only [hyv] at hinit1
      rw [hi] at hinit1
      simp only [Option.some.injEq] at hinit1
      subst hinit1
      refine ⟨rfl, ?_⟩
      intro T hT hcT
      exact resolved_setMethod env T s2 _ init
        (Scan.inputs_resolved env ord hinit rfl T hT hcT)
    · have hc2 := h1 p hp (fun h => h.elim hA hpe)
      exact InitClosed.mono env s2 _ p
        (setMethod_get_ne s2.heap s.heap.length init p (Ne.symm hpe))
        (fun T => resolved_setMethod env T s2 _ init) hc2

/-- With a well-behaved pool a resolved input is satisfied inside the map: it is a key,
or some stored record passes `isType` for it. -/
theorem resolved_satisfied (env : Env ρ) (hwb : WellBehaved env) (T : RType) (s : State ρ)
    (h : Resolved env T s) :
    (∃ q, s.ds.lookup T = some q) ∨
    ∃ k q d, s.ds.lookup k = some q ∧ s.heap.get? q = some d ∧ d.isType env T = true := by
  rcases h with hk | ⟨pool, v, pool1, hval, hv, p, d, hp, hd, hc⟩
  · exact Or.inl hk
  · rcases valid_kind T hval with hkind | hkind
    · have := (hwb pool T v pool1 hv).1 hkind
      rw [this] at hp
      exact Or.inl ⟨p, hp⟩
    · have himp := (hwb pool T v pool1 hv).2 hkind
      refine Or.inr ⟨v.typ, p, d, hp, hd, ?_⟩
      simp [dependency.isType, hkind, hc, himp]

/-- C6. Initializer closure. The pool honours its contract (`WellBehaved`: the value it
returns for a pointer type has that type, the value it returns for an interface
implements it). Then in the graph `newDependencies` returns every stored record whose
type has an `Init` method carries the descriptor of that method in `Method`, and every
input of that `Init` that is not a context type is satisfied inside the same graph: it is
a key, or some stored record passes `isType` for it. -/
theorem init_closure (env : Env ρ) (ord : RangeOrder) (hwb : WellBehaved env)
    (fuel : Nat) (m : reflect.Method) (r : ρ) (b : Built ρ) (g : dependencies)
    (hb : newDependencies env ord fuel m r = some b) (hg : b.graph = some g) :
    ∀ k p, g.lookup k = some p →
      ∃ d, b.heap.get? p = some d ∧
        ∀ init, env.MethodByNameInit d.Value.typ = some init →
          d.Method = some (newMethod init) ∧
          ∀ T ∈ init.ins, env.isContextType T = false →
            (∃ q, g.lookup T = some q) ∨
            ∃ k1 q d1, g.lookup k1 = some q ∧ b.heap.get? q = some d1 ∧
              d1.isType env T = true := by
  intro k p hk
  have hscan := (newDependencies_ok env ord fuel m r b g hb hg).1
  obtain ⟨d, hd, -⟩ := Scan.keySatisfied env ord hscan (keySatisfied_empty env r) k p hk
  have hlt : p < b.heap.length := by
    simp only [List.get?_eq_getElem?] at hd
    exact (List.getElem?_eq_some_iff.mp hd).1
  have hclosed := Scan.initClosed env ord hscan rfl (fun _ => False)
    (by intro q hq; simp at hq) p hlt (fun h => h)
  refine ⟨d, hd, ?_⟩
  intro init hi
  obtain ⟨h1, h2⟩ := hclosed d hd init hi
  exact ⟨h1, fun T hT hc => resolved_satisfied env hwb T _ (h2 T hT hc)⟩

/-- Witness for C6: `*Cfg` has `Init(db *DB)`; the graph of `f(c *Cfg)` holds a
record for `*DB`, and the record of `*Cfg` carries its `Method`. -/
theorem init_closure_witness :
    WellBehaved demo ∧
    (newDependencies demo RangeOrder.id 2 ⟨[tCfg], []⟩ ()).map
      (fun b => (b.graph.map (fun g => g.entries), b.heap))
      = some (some [⟨tDB, 1⟩, ⟨tCfg, 0⟩],
          [⟨⟨tCfg, some 0⟩, some (newMethod initCfg)⟩, ⟨⟨tDB, some 0⟩, none⟩]) ∧
    ∀ k p, ((AList.singleton tCfg 0 : dependencies).insert tDB 1).lookup k = some p →
      ∃ d, [(⟨⟨tCfg, some 0⟩, some (newMethod initCfg)⟩ : dependency),
            ⟨⟨tDB, some 0⟩, none⟩].get? p = some d ∧
        ∀ init, demo.MethodByNameInit d.Value.typ = some init →
          d.Method = some (newMethod init) ∧
          ∀ T ∈ init.ins, demo.isContextType T = false →
            (∃ q, ((AList.singleton tCfg 0 : dependencies).insert tDB 1).lookup T = some q) ∨
            ∃ k1 q d1, ((AList.singleton tCfg 0 : dependencies).insert tDB 1).lookup k1 = some q ∧
              [(⟨⟨tCfg, some 0⟩, some (newMethod initCfg)⟩ : dependency),
                ⟨⟨tDB, some 0⟩, none⟩].get? q = some d1 ∧
              d1.isType demo T = true :=
  ⟨demo_wellBehaved, by decide,
    init_closure demo RangeOrder.id demo_wellBehaved 2 ⟨[tCfg], []⟩ ()
      ⟨some ((AList.singleton tCfg 0).insert tDB 1), none,
        [⟨⟨tCfg, some 0⟩, some (newMethod initCfg)⟩, ⟨⟨tDB, some 0⟩, none⟩], ()⟩
      ((AList.singleton tCfg 0).insert tDB 1) rfl rfl⟩

theorem ownsKey_iff (s : State ρ) (c : RType) : ownsKey s c = true ↔ OwnAt c s := by
  unfold ownsKey OwnAt
  cases hl : s.ds.lookup c with
  | none => simp
  | some p =>
    cases hd : s.heap.get? p with
    | none => rw [List.get?_eq_getElem?] at hd; simp [hd]
    | some d => rw [List.get?_eq_getElem?] at hd; simp [hd]

/-- Fewer types are pending when every own-typed key stays one. -/
theorem pending_le (U : List RType) (s s1 : State ρ)
    (h : ∀ c, OwnAt c s → OwnAt c s1) : pending U s1 ≤ pending U s := by
  unfold pending
  apply List.countP_mono_left
  intro c _ hc
  cases ho : ownsKey s c with
  | false => rfl
  | true =>
    have := (ownsKey_iff s1 c).mpr (h c ((ownsKey_iff s c).mp ho))
    rw [this] at hc; simp at hc

/-- Strictly fewer types are pending when in addition a type of `U` becomes an own-typed
key. -/
theorem pending_lt (U : List RType) (s s1 : State ρ)
    (h : ∀ c, OwnAt c s → OwnAt c s1) (c0 : RType) (hc0 : c0 ∈ U)
    (hn : ¬ OwnAt c0 s) (hy : OwnAt c0 s1) : pending U s1 < pending U s := by
  unfold pending
  induction U with
  | nil => simp at hc0
  | cons a U ih =>
    have hmono : List.countP (fun c => !ownsKey s1 c) U ≤ List.countP (fun c => !ownsKey s c) U :=
      pending_le U s s1 h
    by_cases hac : a = c0
    · subst hac
      have h1 : ownsKey s1 a = true := (ownsKey_iff s1 a).mpr hy
      have h0 : ownsKey s a = false := by
        cases ho : ownsKey s a with
        | false => rfl
        | true => exact absurd ((ownsKey_iff s a).mp ho) hn
      simp only [List.countP_cons, h1, h0]
      simp
      omega
    · have hmem : c0 ∈ U := by
        rcases List.mem_cons.mp hc0 with h1 | h1
        · exact absurd h1.symm hac
        · exact h1
      have := ih hmem
      have ha : (if (!ownsKey s1 a) = true then 1 else 0) ≤
          (if (!ownsKey s a) = true then 1 else 0) := by
        cases ho : ownsKey s a with
        | false => simp; split <;> omega
        | true =>
          have := (ownsKey_iff s1 a).mpr (h a ((ownsKey_iff s a).mp ho))
          simp [this]
      simp only [List.countP_cons]
      omega

/-- With a well-behaved pool, the type of a value resolved afresh is not yet an
own-typed key. -/
theorem fresh_not_owned (env : Env ρ) (hwb : WellBehaved env) (s : State ρ) (t : RType)
    (v : reflect.Value) (pool1 : ρ)
    (hl : s.ds.lookup t = none)
    (hno : ∀ e ∈ s.ds.entries, isTypeAt env s.heap t e = false)
    (hv : isValidDependencyType t = none)
    (hp : env.valueOf s.pool t = (.ok v, pool1)) : ¬ OwnAt v.typ s := by
  rintro ⟨p, d, hlp, hd, hc⟩
  rcases valid_kind t hv with hk | hk
  · have := (hwb s.pool t v pool1 hp).1 hk
    rw [this, hl] at hlp; simp at hlp
  · have himp := (hwb s.pool t v pool1 hp).2 hk
    have hmem : (⟨v.typ, p⟩ : Entry) ∈ s.ds.entries := AList.mem_lookup_iff.mp hlp
    have := hno _ hmem
    unfold isTypeAt at this
    rw [hd] at this
    simp [dependency.isType, hk, hc, himp] at this

/-- One level of the termination argument: when shorter measures are known to
terminate, so does the loop over any list of inputs of the universe. -/
theorem scan_total_step (env : Env ρ) (ord : RangeOrder) (hwb : WellBehaved env)
    (U : List RType) (hU : Universe env U) (N : Nat)
    (hrec : ∀ ins, (∀ T ∈ ins, T ∈ U) → ∀ s : State ρ, pending U s < N →
      ∃ r s1, Scan env ord ins s r s1 ∧ pending U s1 ≤ pending U s) :
    ∀ ins, (∀ T ∈ ins, T ∈ U) → ∀ s : State ρ, pending U s ≤ N →
      ∃ r s1, Scan env ord ins s r s1 ∧ pending U s1 ≤ pending U s := by
  intro ins
  induction ins with
  | nil => intro _ s _; exact ⟨none, s, Scan.done s, Nat.le_refl _⟩
  | cons t rest ih =>
    intro hins s hs
    have hrestU : ∀ T ∈ rest, T ∈ U := fun T hT => hins T (List.mem_cons_of_mem _ hT)
    have htU : t ∈ U := hins t (List.mem_cons_self _ _)
    cases hl : s.ds.lookup t with
    | some d =>
      obtain ⟨r, s1, h1, h2⟩ := ih hrestU s hs
      exact ⟨r, s1, Scan.hit s t rest d r s1 hl h1, h2⟩
    | none =>
      cases hf : (ord.enum t s.ds.entries).find? (isTypeAt env s.heap t) with
      | some e =>
        have hle : pending U ({ s with ds := s.ds.insert t e.2 } : State ρ) ≤ pending U s :=
          pending_le U s _ (fun c => ownAt_insert c t e.2 s hl)
        obtain ⟨r, s1, h1, h2⟩ := ih hrestU _ (Nat.le_trans hle hs)
        exact ⟨r, s1, Scan.reindex s t rest e r s1 hl hf h1, Nat.le_trans h2 hle⟩
      | none =>
        cases hc : env.isContextType t with
        | true =>
          obtain ⟨r, s1, h1, h2⟩ := ih hrestU s hs
          exact ⟨r, s1, Scan.context s t rest r s1 hl hf hc h1, h2⟩
        | false =>
          cases hv : isValidDependencyType t with
          | some err =>
            exact ⟨some err, s, Scan.invalid s t rest err hl hf hc hv, Nat.le_refl _⟩
          | none =>
            rcases hp : env.valueOf s.pool t with ⟨res, pool1⟩
            cases res with
            | error err =>
              exact ⟨some err, _, Scan.poolError s t rest err pool1 hl hf hc hv hp,
                pending_le U s _ (fun c h => h)⟩
            | ok v =>
              have hvU : v.typ ∈ U := hU.pool s.pool t v pool1 htU hp
              have hnot := fresh_not_owned env hwb s t v pool1 hl
                (find_none_spec env ord s.heap s.ds t hf) hv hp
              have hlt : pending U (s.added v pool1) < pending U s :=
                pending_lt U s _ (fun c => ownAt_added_mono c s v pool1) v.typ hvU hnot
                  (ownAt_added s v pool1)
              cases hi : env.MethodByNameInit v.typ with
              | none =>
                obtain ⟨r, s1, h1, h2⟩ := ih hrestU (s.added v pool1) (by omega)
                exact ⟨r, s1, Scan.noInit s t rest v pool1 r s1 hl hf hc hv hp hi h1, by omega⟩
              | some init =>
                cases hb : env.isValidInit init with
                | some err =>
                  exact ⟨some err, _, Scan.badInit s t rest v pool1 init err hl hf hc hv hp hi hb,
                    by omega⟩
                | none =>
                  obtain ⟨r2, s2, h3, h4⟩ :=
                    hrec init.ins (hU.init v.typ hvU init hi) (s.added v pool1) (by omega)
                  cases r2 with
                  | some err =>
                    exact ⟨some err, s2,
                      Scan.initError s t rest v pool1 init err s2 hl hf hc hv hp hi hb h3,
                      by omega⟩
                  | none =>
                    have hle : pending U
                        ({ s2 with heap := setMethod s2.heap s.heap.length init } : State ρ)
                        ≤ pending U s2 :=
                      pending_le U s2 _ (fun c => ownAt_setMethod c s2 _ init)
                    obtain ⟨r, s1, h1, h2⟩ := ih hrestU
                      ({ s2 with heap := setMethod s2.heap s.heap.length init } : State ρ)
                      (by omega)
                    exact ⟨r, s1,
                      Scan.initDone s t rest v pool1 init s2 r s1 hl hf hc hv hp hi hb h3 h1,
                      by omega⟩

/-- Termination: with a well-behaved pool and a universe of types, the loop over inputs
of the universe has a run from every state. -/
theorem scan_total (env : Env ρ) (ord : RangeOrder) (hwb : WellBehaved env)
    (U : List RType) (hU : Universe env U) :
    ∀ N ins, (∀ T ∈ ins, T ∈ U) → ∀ s : State ρ, pending U s ≤ N →
      ∃ r s1, Scan env ord ins s r s1 ∧ pending U s1 ≤ pending U s := by
  intro N
  induction N with
  | zero =>
    exact scan_total_step env ord hwb U hU 0 (fun ins _ s h => absurd h (Nat.not_lt_zero _))
  | succ n ih =>
    exact scan_total_step env ord hwb U hU (n + 1)
      (fun ins hins s h => ih ins hins s (Nat.lt_succ_iff.mp h))

/-- The loop visits the inputs in order and stops at the first error: over `pre ++ post`
it runs over `pre`, returns its error if there is one, and only otherwise goes on
with `post` from the state reached. -/
theorem scanLoop_append (env : Env ρ) (ord : RangeOrder)
    (self : reflect.Method → State ρ → Option (Option Err × State ρ)) (post : List RType) :
    ∀ pre s, scanLoop env ord self (pre ++ post) s =
      match scanLoop env ord self pre s with
      | none => none
      | some (some err, s1) => some (some err, s1)
      | some (none, s1) => scanLoop env ord self post s1 := by
  intro pre
  induction pre with
  | nil => intro s; simp [scanLoop]
  | cons input rest ih =>
    intro s
    simp only [List.cons_append]
    rw [scanLoop, scanLoop]
    rcases dependencies.vaueOf env ord s.heap s.ds input with ⟨found, ds1⟩
    cases found with
    | some d => exact ih _
    | none =>
      simp only
      cases env.isContextType input with
      | true => simp only [if_true]; exact ih _
      | false =>
        simp only [Bool.false_eq_true, if_false]
        rcases newDependency env input s.heap s.pool with ⟨res, heap1, pool1⟩
        cases res with
        | error err => rfl
        | ok d =>
          simp only
          cases (heap1.get? d).bind (fun dep => env.MethodByNameInit dep.Value.typ) with
          | none => exact ih _
          | some init =>
            simp only
            cases env.isValidInit init with
            | some err => rfl
            | none =>
              simp only
              cases self init ⟨heap1, dependencies.add heap1 ds1 d, pool1⟩ with
              | none => rfl
              | some res2 =>
                rcases res2 with ⟨r2, s2⟩
                cases r2 with
                | some err => rfl
                | none => exact ih _

/-- Termination of `newDependencies`: with a well-behaved pool and a universe of types
holding the inputs of `m`, every large enough fuel gives the same result. -/
theorem newDependencies_terminates (env : Env ρ) (ord : RangeOrder) (hwb : WellBehaved env)
    (U : List RType) (hU : Universe env U) (m : reflect.Method) (hm : ∀ T ∈ m.ins, T ∈ U)
    (r : ρ) : ∃ n b, ∀ fuel, n ≤ fuel → newDependencies env ord fuel m r = some b := by
  obtain ⟨e, s1, hscan, -⟩ :=
    scan_total env ord hwb U hU (pending U (⟨[], ∅, r⟩ : State ρ)) m.ins hm ⟨[], ∅, r⟩
      (Nat.le_refl _)
  obtain ⟨n, hn⟩ := scanLoop_complete env ord hscan
  cases e with
  | none =>
    refine ⟨n + 1, ⟨some s1.ds, none, s1.heap, s1.pool⟩, ?_⟩
    intro fuel hfuel
    obtain ⟨k, rfl⟩ : ∃ k, fuel = k + 1 := ⟨fuel - 1, by omega⟩
    have := hn k (by omega)
    simp only [newDependencies, scanDependencies, this]
  | some err =>
    refine ⟨n + 1, ⟨none, some err, s1.heap, s1.pool⟩, ?_⟩
    intro fuel hfuel
    obtain ⟨k, rfl⟩ : ∃ k, fuel = k + 1 := ⟨fuel - 1, by omega⟩
    have := hn k (by omega)
    simp only [newDependencies, scanDependencies, this]

/-- The types `*Cfg` and `*DB` form a universe of the example program. -/
theorem demo_universe : Universe demo [tCfg, tDB] := by
  constructor
  · intro r t v r1 ht h
    simp only [List.mem_cons, List.mem_singleton, List.not_mem_nil, or_false] at ht
    rcases ht with rfl | rfl
    · simp only [demo, tCfg, Prod.mk.injEq, Except.ok.injEq] at h
      rw [← h.1]; simp [tCfg]
    · simp only [demo, tDB, Prod.mk.injEq, Except.ok.injEq] at h
      rw [← h.1]; simp [tDB]
  · intro c hc init hi T hT
    simp only [List.mem_cons, List.mem_singleton, List.not_mem_nil, or_false] at hc
    rcases hc with rfl | rfl
    · have : init = initCfg := by
        simpa [demo] using hi.symm
      subst this
      simpa [initCfg] using hT
    · simp [demo, tDB, tCfg] at hi

/-- C7. Fail-fast, no partial graph. `newDependencies` returns what `scanDependencies`
returned on the empty map: the map and a nil error, or no map and the error of the scan,
never both and never neither. The loop stops at the first error in the order of the
inputs: an error raised while visiting `pre` is the result for `pre ++ post`, with the
state of that moment, and `post` is only visited after `pre` returned nil. With a
well-behaved pool over a universe of types the call does return. -/
theorem fail_fast (env : Env ρ) (ord : RangeOrder) (m : reflect.Method) (r : ρ) :
    (∀ fuel, newDependencies env ord fuel m r =
      (scanDependencies env ord fuel m ⟨[], ∅, r⟩).map (fun x =>
        match x with
        | (some err, s) => ⟨none, some err, s.heap, s.pool⟩
        | (none, s) => ⟨some s.ds, none, s.heap, s.pool⟩)) ∧
    (∀ fuel b, newDependencies env ord fuel m r = some b →
      (b.graph ≠ none ∧ b.err = none) ∨ (b.graph = none ∧ b.err ≠ none)) ∧
    (∀ (self : reflect.Method → State ρ → Option (Option Err × State ρ)) pre post s err s1,
      scanLoop env ord self pre s = some (some err, s1) →
      scanLoop env ord self (pre ++ post) s = some (some err, s1)) ∧
    (∀ (self : reflect.Method → State ρ → Option (Option Err × State ρ)) pre post s s1,
      scanLoop env ord self pre s = some (none, s1) →
      scanLoop env ord self (pre ++ post) s = scanLoop env ord self post s1) ∧
    (∀ fuel pre post outs b, b.err ≠ none →
      newDependencies env ord fuel ⟨pre, outs⟩ r = some b →
      newDependencies env ord fuel ⟨pre ++ post, outs⟩ r = some b) ∧
    (WellBehaved env → ∀ U, Universe env U → (∀ T ∈ m.ins, T ∈ U) →
      ∃ n b, ∀ fuel, n ≤ fuel → newDependencies env ord fuel m r = some b) := by
  refine ⟨?_, ?_, ?_, ?_, ?_, ?_⟩
  · intro fuel
    unfold newDependencies
    cases scanDependencies env ord fuel m ⟨[], ∅, r⟩ with
    | none => rfl
    | some x =>
      rcases x with ⟨e, s⟩
      cases e <;> rfl
  · intro fuel b hb
    rcases newDependencies_cases env ord fuel m r b hb with ⟨s, -, rfl⟩ | ⟨err, s, -, rfl⟩
    · exact Or.inl ⟨by simp, rfl⟩
    · exact Or.inr ⟨rfl, by simp⟩
  · intro self pre post s err s1 h
    rw [scanLoop_append, h]
  · intro self pre post s s1 h
    rw [scanLoop_append, h]
  · intro fuel pre post outs b hne hb
    cases fuel with
    | zero => simp [newDependencies, scanDependencies] at hb
    | succ k =>
      simp only [newDependencies, scanDependencies] at hb ⊢
      rw [scanLoop_append]
      cases hs : scanLoop env ord (scanDependencies env ord k) pre ⟨[], ∅, r⟩ with
      | none => rw [hs] at hb; simp at hb
      | some x =>
        rcases x with ⟨e, s⟩
        rw [hs] at hb
        cases e with
        | some err => exact hb
        | none =>
          simp only [Option.some.injEq] at hb
          rw [← hb] at hne
          simp at hne
  · intro hwb U hU hm
    exact newDependencies_terminates env ord hwb U hU m hm r

/-- Witness for C7: the build of `f(c *Cfg)` in the example program returns, and
`f(b S, a *A)` stops at its first input. -/
theorem fail_fast_witness :
    (∃ n b, ∀ fuel, n ≤ fuel →
      newDependencies demo RangeOrder.id fuel ⟨[tCfg], []⟩ () = some b) ∧
    newDependencies demo RangeOrder.id 1 ⟨[tS] ++ [tA], []⟩ ()
      = some ⟨none, some (Err.InvalidDependencyType tS), [], ()⟩ :=
  ⟨(fail_fast demo RangeOrder.id ⟨[tCfg], []⟩ ()).2.2.2.2.2 demo_wellBehaved [tCfg, tDB]
      demo_universe (by simp),
    (fail_fast demo RangeOrder.id ⟨[tS], []⟩ ()).2.2.2.2.1 1 [tS] [tA] []
      ⟨none, some (Err.InvalidDependencyType tS), [], ()⟩ (by simp) rfl⟩

/-- The outcome of `init` on a non-nil pointer to an allocated location. -/
theorem init_eq (mem : Memory) (d : dependency) (elem : RType) (l : Nat) (cell : Cell)
    (ht : d.Value.typ = .ptr elem) (hp : d.Value.ptr = some l) (hc : mem.get? l = some cell) :
    dependency.init mem d
      = some (⟨.ptr elem, some mem.length⟩, (mem ++ [zeroCell elem]).set mem.length cell) := by
  have hl : l < mem.length := by
    rw [List.get?_eq_getElem?] at hc
    exact (List.getElem?_eq_some_iff.mp hc).1
  have h1 : (mem ++ [zeroCell elem]).get? l = some cell := by
    rw [List.get?_eq_getElem?, List.getElem?_append_left hl, ← List.get?_eq_getElem?]
    exact hc
  unfold dependency.init
  rw [ht]
  simp only [hp, h1]

/-- The memory after `init`: the new location holds the template's cell, the locations
allocated before hold what they held. -/
theorem init_frame (mem : Memory) (elem : RType) (l : Nat) (cell : Cell)
    (hc : mem.get? l = some cell) :
    ((mem ++ [zeroCell elem]).set mem.length cell).get? mem.length = some cell ∧
    (∀ a, a < mem.length →
      ((mem ++ [zeroCell elem]).set mem.length cell).get? a = mem.get? a) ∧
    ((mem ++ [zeroCell elem]).set mem.length cell).length = mem.length + 1 ∧
    l < mem.length := by
  have hl : l < mem.length := by
    rw [List.get?_eq_getElem?] at hc
    exact (List.getElem?_eq_some_iff.mp hc).1
  refine ⟨by simp, ?_, by simp, hl⟩
  intro a ha
  simp only [List.get?_eq_getElem?]
  rw [List.getElem?_set_ne (by omega), List.getElem?_append_left ha]

/-- C8. Materialisation is a fresh shallow copy: for a record whose template `Value` is
a non-nil pointer to an allocated location, `init` returns a pointer of the template's
type to a location that was not allocated before (so different from the template's),
holding the same cell as the template's pointee; every location allocated before,
the template's among them, holds what it held; and the result does not depend on
`Method`: the `Init` method plays no part. -/
theorem materialize_fresh_copy (mem : Memory) (d : dependency) (elem : RType) (l : Nat)
    (cell : Cell) (ht : d.Value.typ = .ptr elem) (hp : d.Value.ptr = some l)
    (hc : mem.get? l = some cell) :
    ∃ mem1, dependency.init mem d = some (⟨d.Value.typ, some mem.length⟩, mem1) ∧
      mem.length ≠ l ∧ mem.get? mem.length = none ∧
      mem1.get? mem.length = some cell ∧
      (∀ a, a < mem.length → mem1.get? a = mem.get? a) ∧
      mem1.length = mem.length + 1 ∧
      ∀ meth, dependency.init mem { d with Method := meth } = dependency.init mem d := by
  obtain ⟨hnew, hold, hlen, hl⟩ := init_frame mem elem l cell hc
  refine ⟨(mem ++ [zeroCell elem]).set mem.length cell, ?_, ?_, ?_, hnew, hold, hlen, ?_⟩
  · rw [init_eq mem d elem l cell ht hp hc, ht]
  · omega
  · simp
  · intro meth
    rfl

/-- Witness for C8: the `*Item` template at location 0 is copied to location 1. -/
theorem materialize_fresh_copy_witness :
    ∃ mem1, dependency.init structMem structDep
        = some (⟨structDep.Value.typ, some structMem.length⟩, mem1) ∧
      structMem.length ≠ 0 ∧ structMem.get? structMem.length = none ∧
      mem1.get? structMem.length = some (.struct [7, 8]) ∧
      (∀ a, a < structMem.length → mem1.get? a = structMem.get? a) ∧
      mem1.length = structMem.length + 1 ∧
      ∀ meth, dependency.init structMem { structDep with Method := meth }
        = dependency.init structMem structDep :=
  materialize_fresh_copy structMem structDep (.struct 5 2) 0 (.struct [7, 8]) rfl rfl rfl

/-- Reading through a pointer sees the same value after another location was
overwritten by a cell of the same sort as the one it held, unless that location is the
one read or, for a slice, its backing array. -/
theorem load_set_struct (mem : Memory) (q p : Nat) (f g : List Nat)
    (hq : mem.get? q = some (.struct f)) (hne : p ≠ q) :
    load (mem.set q (.struct g)) p = load mem p := by
  unfold load
  have h1 : (mem.set q (.struct g)).get? p = mem.get? p := by
    simp only [List.get?_eq_getElem?]
    exact List.getElem?_set_ne (Ne.symm hne)
  rw [h1]
  cases hcell : mem.get? p with
  | none => rfl
  | some c =>
    cases c with
    | struct _ => rfl
    | array _ => rfl
    | word _ => rfl
    | slice a len cap =>
      cases a with
      | none => rfl
      | some a =>
        simp only
        by_cases haq : a = q
        · subst haq
          have h2 : (mem.set a (.struct g)).get? a = some (.struct g) := by
            have hlt : a < mem.length := by
              rw [List.get?_eq_getElem?] at hq
              exact (List.getElem?_eq_some_iff.mp hq).1
            simp [hlt]
          rw [h2, hq]
        · have h2 : (mem.set q (.struct g)).get? a = mem.get? a := by
            simp only [List.get?_eq_getElem?]
            exact List.getElem?_set_ne (Ne.symm haq)
          rw [h2]

/-- The same, for a slice header overwritten by a slice header. -/
theorem load_set_slice (mem : Memory) (q p : Nat) (a0 : Option Nat) (l0 c0 : Nat)
    (a1 : Option Nat) (l1 c1 : Nat)
    (hq : mem.get? q = some (.slice a0 l0 c0)) (hne : p ≠ q) :
    load (mem.set q (.slice a1 l1 c1)) p = load mem p := by
  unfold load
  have h1 : (mem.set q (.slice a1 l1 c1)).get? p = mem.get? p := by
    simp only [List.get?_eq_getElem?]
    exact List.getElem?_set_ne (Ne.symm hne)
  rw [h1]
  cases hcell : mem.get? p with
  | none => rfl
  | some c =>
    cases c with
    | struct _ => rfl
    | array _ => rfl
    | word _ => rfl
    | slice a len cap =>
      cases a with
      | none => rfl
      | some a =>
        simp only
        by_cases haq : a = q
        · subst haq
          have h2 : (mem.set a (.slice a1 l1 c1)).get? a = some (.slice a1 l1 c1) := by
            have hlt : a < mem.length := by
              rw [List.get?_eq_getElem?] at hq
              exact (List.getElem?_eq_some_iff.mp hq).1
            simp [hlt]
          rw [h2, hq]
        · have h2 : (mem.set q (.slice a1 l1 c1)).get? a = mem.get? a := by
            simp only [List.get?_eq_getElem?]
            exact List.getElem?_set_ne (Ne.symm haq)
          rw [h2]

/-- C9, as stated, fails for the shape pointer to slice of struct: the two copies of a
`*[]Item` template get slice headers of their own (locations 2 and 3) over the backing
array of the template (location 1), so assigning element 0 through the first copy
changes what the second copy and the template see. -/
theorem independent_copies_counterexample :
    (dependency.init sliceMem sliceDep).bind (fun r1 =>
      (dependency.init r1.2 sliceDep).bind (fun r2 =>
        (assignElem r2.2 2 0 [9]).map (fun m3 =>
          (r1.1.ptr, r2.1.ptr, load r2.2 2, load r2.2 3, load r2.2 0,
            load m3 3, load m3 0))))
      = some (some 2, some 3, some (.slice [[7]]), some (.slice [[7]]), some (.slice [[7]]),
          some (.slice [[9]]), some (.slice [[9]])) := by
  rfl

/-- C9, amended. Two calls of `init` on a record whose template is a non-nil pointer
return pointers to two different new locations, both different from the template's, that
hold the same cell as the template's pointee. Assigning a field of the struct through
the first copy (pointer to struct), or assigning a whole slice to the first copy
(pointer to slice), leaves what is read through the second copy and through the
template unchanged. -/
theorem independent_copies (mem : Memory) (d : dependency) (elem : RType) (l : Nat)
    (cell : Cell) (ht : d.Value.typ = .ptr elem) (hp : d.Value.ptr = some l)
    (hc : mem.get? l = some cell) :
    ∃ mem1 mem2, dependency.init mem d = some (⟨.ptr elem, some mem.length⟩, mem1) ∧
      dependency.init mem1 d = some (⟨.ptr elem, some (mem.length + 1)⟩, mem2) ∧
      l ≠ mem.length ∧ l ≠ mem.length + 1 ∧
      mem2.get? mem.length = some cell ∧ mem2.get? (mem.length + 1) = some cell ∧
      mem2.get? l = some cell ∧
      (∀ i x mem3, assignField mem2 mem.length i x = some mem3 →
        load mem3 (mem.length + 1) = load mem2 (mem.length + 1) ∧
        load mem3 l = load mem2 l) ∧
      (∀ a len cap mem3, assignSlice mem2 mem.length a len cap = some mem3 →
        load mem3 (mem.length + 1) = load mem2 (mem.length + 1) ∧
        load mem3 l = load mem2 l) := by
  obtain ⟨h1new, h1old, h1len, hl⟩ := init_frame mem elem l cell hc
  have h1 := init_eq mem d elem l cell ht hp hc
  generalize (mem ++ [zeroCell elem]).set mem.length cell = mem1 at h1 h1new h1old h1len
  have hc1 : mem1.get? l = some cell := by rw [h1old l hl]; exact hc
  obtain ⟨h2new, h2old, h2len, -⟩ := init_frame mem1 elem l cell hc1
  have h2 := init_eq mem1 d elem l cell ht hp hc1
  generalize (mem1 ++ [zeroCell elem]).set mem1.length cell = mem2 at h2 h2new h2old h2len
  rw [h1len] at h2 h2new
  have hv1 : mem2.get? mem.length = some cell := by
    rw [h2old mem.length (by omega)]; exact h1new
  have hvl : mem2.get? l = some cell := by
    rw [h2old l (by omega)]; exact hc1
  refine ⟨mem1, mem2, h1, h2, by omega, by omega, hv1, h2new, hvl, ?_, ?_⟩
  · intro i x mem3 h3
    unfold assignField at h3
    rw [hv1] at h3
    cases cell with
    | struct f =>
      simp only at h3
      split at h3
      · simp only [Option.some.injEq] at h3
        subst h3
        exact ⟨load_set_struct mem2 _ _ f _ hv1 (by omega),
          load_set_struct mem2 _ _ f _ hv1 (by omega)⟩
      · simp at h3
    | slice _ _ _ => simp at h3
    | array _ => simp at h3
    | word _ => simp at h3
  · intro a len cap mem3 h3
    unfold assignSlice at h3
    rw [hv1] at h3
    cases cell with
    | slice a0 l0 c0 =>
      simp only [Option.some.injEq] at h3
      subst h3
      exact ⟨load_set_slice mem2 _ _ a0 l0 c0 a len cap hv1 (by omega),
        load_set_slice mem2 _ _ a0 l0 c0 a len cap hv1 (by omega)⟩
    | struct _ => simp at h3
    | array _ => simp at h3
    | word _ => simp at h3

/-- Witness for C9 amended: the `*Item` template at location 0; its two copies are at
locations 1 and 2. -/
theorem independent_copies_witness :
    ∃ mem1 mem2, dependency.init structMem structDep
        = some (⟨.ptr (.struct 5 2), some structMem.length⟩, mem1) ∧
      dependency.init mem1 structDep
        = some (⟨.ptr (.struct 5 2), some (structMem.length + 1)⟩, mem2) ∧
      0 ≠ structMem.length ∧ 0 ≠ structMem.length + 1 ∧
      mem2.get? structMem.length = some (.struct [7, 8]) ∧
      mem2.get? (structMem.length + 1) = some (.struct [7, 8]) ∧
      mem2.get? 0 = some (.struct [7, 8]) ∧
      (∀ i x mem3, assignField mem2 structMem.length i x = some mem3 →
        load mem3 (structMem.length + 1) = load mem2 (structMem.length + 1) ∧
        load mem3 0 = load mem2 0) ∧
      (∀ a len cap mem3, assignSlice mem2 structMem.length a len cap = some mem3 →
        load mem3 (structMem.length + 1) = load mem2 (structMem.length + 1) ∧
        load mem3 0 = load mem2 0) :=
  independent_copies structMem structDep (.struct 5 2) 0 (.struct [7, 8]) rfl rfl rfl

/-- Over a universe in which nothing can fail, a run over acceptable inputs returns nil. -/
theorem Scan.no_error (env : Env ρ) (ord : RangeOrder) (U : List RType)
    (hU : Universe env U) (hB : Buildable env U)
    {ins : List RType} {s : State ρ} {r : Option Err} {s1 : State ρ}
    (h : Scan env ord ins s r s1) :
    (∀ T ∈ ins, T ∈ U ∧ Acceptable env T) → r = none := by
  induction h with
  | done s => intro _; rfl
  | hit s t rest d r s1 hl _ ih =>
    intro hins; exact ih (fun T hT => hins T (List.mem_cons_of_mem _ hT))
  | reindex s t rest e r s1 hl hf _ ih =>
    intro hins; exact ih (fun T hT => hins T (List.mem_cons_of_mem _ hT))
  | context s t rest r s1 hl hf hc _ ih =>
    intro hins; exact ih (fun T hT => hins T (List.mem_cons_of_mem _ hT))
  | invalid s t rest err hl hf hc hv =>
    intro hins
    rcases (hins t (List.mem_cons_self _ _)).2 with h1 | h1
    · rw [hc] at h1; simp at h1
    · rw [hv] at h1; simp at h1
  | poolError s t rest err pool1 hl hf hc hv hp =>
    intro hins
    obtain ⟨v, r1, h1⟩ := hB.pool s.pool t (hins t (List.mem_cons_self _ _)).1 hc hv
    rw [hp] at h1; simp at h1
  | noInit s t rest v pool1 r s1 hl hf hc hv hp hi _ ih =>
    intro hins; exact ih (fun T hT => hins T (List.mem_cons_of_mem _ hT))
  | badInit s t rest v pool1 init err hl hf hc hv hp hi hb =>
    intro hins
    have hvU := hU.pool s.pool t v pool1 (hins t (List.mem_cons_self _ _)).1 hp
    have := (hB.init v.typ hvU init hi).1
    rw [hb] at this; simp at this
  | initError s t rest v pool1 init err s2 hl hf hc hv hp hi hb _ ih =>
    intro hins
    have hvU := hU.pool s.pool t v pool1 (hins t (List.mem_cons_self _ _)).1 hp
    exact ih (fun T hT => ⟨hU.init v.typ hvU init hi T hT, (hB.init v.typ hvU init hi).2 T hT⟩)
  | initDone s t rest v pool1 init s2 r s1 hl hf hc hv hp hi hb _ _ _ ih2 =>
    intro hins; exact ih2 (fun T hT => hins T (List.mem_cons_of_mem _ hT))

/-- C10, as stated, fails: the interface `tNone` is a valid dependency type, but no pool
member implements it; the pool returns an error and so does the build of `f(x tNone)`. -/
theorem valid_signature_counterexample :
    newDependencies demo RangeOrder.id 1 ⟨[tNone], []⟩ ()
      = some ⟨none, some (Err.NoImplementationFound tNone), [], ()⟩ ∧
    isValidDependencyType tNone = none :=
  ⟨rfl, rfl⟩

/-- C10, amended. Let every input of `m` be a context type or a valid dependency type,
and let the types reachable from `m` form a universe `U` over which the pool is well
behaved and returns a value for every valid dependency type, and every `Init` method is
accepted by `isValidInit` and has only context types and valid dependency types as
inputs. Then `newDependencies(m, r)` returns a graph and no error. -/
theorem valid_signature_builds (env : Env ρ) (ord : RangeOrder) (hwb : WellBehaved env)
    (U : List RType) (hU : Universe env U) (hB : Buildable env U) (m : reflect.Method)
    (hm : ∀ T ∈ m.ins, T ∈ U ∧ Acceptable env T) (r : ρ) :
    ∃ n b g, b.graph = some g ∧ b.err = none ∧
      ∀ fuel, n ≤ fuel → newDependencies env ord fuel m r = some b := by
  obtain ⟨n, b, hn⟩ :=
    newDependencies_terminates env ord hwb U hU m (fun T hT => (hm T hT).1) r
  rcases newDependencies_cases env ord n m r b (hn n (Nat.le_refl _)) with
    ⟨s, -, rfl⟩ | ⟨err, s, hscan, rfl⟩
  · exact ⟨n, _, s.ds, rfl, rfl, hn⟩
  · have := Scan.no_error env ord U hU hB hscan hm
    simp at this

/-- In the universe `*Cfg`, `*DB` of the example program nothing can fail. -/
theorem demo_buildable : Buildable demo [tCfg, tDB] := by
  constructor
  · intro r t ht _ _
    simp only [List.mem_cons, List.mem_singleton, List.not_mem_nil, or_false] at ht
    rcases ht with rfl | rfl
    · exact ⟨⟨tCfg, some 0⟩, r, rfl⟩
    · exact ⟨⟨tDB, some 0⟩, r, rfl⟩
  · intro c hc init hi
    refine ⟨rfl, ?_⟩
    simp only [List.mem_cons, List.mem_singleton, List.not_mem_nil, or_false] at hc
    rcases hc with rfl | rfl
    · have : init = initCfg := by
        simpa [demo] using hi.symm
      subst this
      intro T hT
      simp only [initCfg, List.mem_cons, List.mem_singleton, List.not_mem_nil, or_false] at hT
      rcases hT with rfl | rfl
      · exact Or.inr rfl
      · exact Or.inr rfl
    · simp [demo, tDB, tCfg] at hi

/-- Witness for C10 amended: the handler `f(c *Cfg)` of the example program builds. -/
theorem valid_signature_builds_witness :
    ∃ n b g, b.graph = some g ∧ b.err = none ∧
      ∀ fuel, n ≤ fuel →
        newDependencies demo RangeOrder.id fuel ⟨[tCfg], []⟩ () = some b :=
  valid_signature_builds demo RangeOrder.id demo_wellBehaved [tCfg, tDB] demo_universe
    demo_buildable ⟨[tCfg], []⟩
    (by
      intro T hT
      simp only [List.mem_singleton] at hT
      subst hT
      exact ⟨by simp, Or.inr rfl⟩) ()

/-- An interface is a valid dependency type. -/
theorem iface_valid (T : RType) (hk : T.Kind = Kind.Interface) :
    isValidDependencyType T = none := by
  cases T <;> simp_all [isValidDependencyType, RType.Kind]

/-- The loop step on an input that `vaueOf` does not find, that is not a context type
and for which the pool returns an error: the loop returns that error at once, with the
map and the heap as they were. -/
theorem scanLoop_pool_error (env : Env ρ) (ord : RangeOrder)
    (self : reflect.Method → State ρ → Option (Option Err × State ρ))
    (T : RType) (rest : List RType) (s : State ρ) (err : Err) (pool1 : ρ)
    (hv : isValidDependencyType T = none) (hc : env.isContextType T = false)
    (hnot : (dependencies.vaueOf env ord s.heap s.ds T).1 = none)
    (hpool : env.valueOf s.pool T = (.error err, pool1)) :
    scanLoop env ord self (T :: rest) s = some (some err, ⟨s.heap, s.ds, pool1⟩) := by
  rw [scanLoop]
  rcases vaueOf_cases env ord s.heap s.ds T with ⟨d, -, h⟩ | ⟨e, -, -, h⟩ | ⟨-, -, h⟩
  · rw [h] at hnot; simp at hnot
  · rw [h] at hnot; simp at hnot
  · rw [h]
    simp [hc, newDependency, hv, hpool]

/-- C11. Pool failure aborts the build. Let `T` be an interface parameter of `m`, not a
context type, reached after the parameters `pre` before it were resolved (state `s1`),
and not found by `vaueOf` among the entries resolved so far. When the pool returns an
error for `T`, `scanDependencies` returns exactly that error with the map and the heap
as they were when `T` was reached (no record for `T` or for a later parameter), and
`newDependencies` returns no graph and that error. -/
theorem pool_failure_aborts (env : Env ρ) (ord : RangeOrder) (fuel : Nat)
    (pre post outs : List RType) (T : RType) (r : ρ) (s1 : State ρ) (err : Err) (pool1 : ρ)
    (hk : T.Kind = Kind.Interface) (hc : env.isContextType T = false)
    (hpre : scanLoop env ord (scanDependencies env ord fuel) pre ⟨[], ∅, r⟩ = some (none, s1))
    (hnot : (dependencies.vaueOf env ord s1.heap s1.ds T).1 = none)
    (hpool : env.valueOf s1.pool T = (.error err, pool1)) :
    scanDependencies env ord (fuel + 1) ⟨pre ++ T :: post, outs⟩ ⟨[], ∅, r⟩
      = some (some err, ⟨s1.heap, s1.ds, pool1⟩) ∧
    newDependencies env ord (fuel + 1) ⟨pre ++ T :: post, outs⟩ r
      = some ⟨none, some err, s1.heap, pool1⟩ ∧
    s1.ds.lookup T = none := by
  have hscan : scanDependencies env ord (fuel + 1) ⟨pre ++ T :: post, outs⟩ ⟨[], ∅, r⟩
      = some (some err, ⟨s1.heap, s1.ds, pool1⟩) := by
    rw [scanDependencies]
    simp only
    rw [scanLoop_append, hpre]
    exact scanLoop_pool_error env ord _ T post s1 err pool1 (iface_valid T hk) hc hnot hpool
  refine ⟨hscan, ?_, ?_⟩
  · unfold newDependencies
    rw [hscan]
  · rcases vaueOf_cases env ord s1.heap s1.ds T with ⟨d, -, h⟩ | ⟨e, -, -, h⟩ | ⟨hl, -, -⟩
    · rw [h] at hnot; simp at hnot
    · rw [h] at hnot; simp at hnot
    · exact hl

/-- Witness for C11: in `f(a *A, x tNone, db *DB)` the pool has no implementation of
the interface `tNone`; the build stops there with the record of `*A` only. -/
theorem pool_failure_aborts_witness :
    scanDependencies demo RangeOrder.id 1 ⟨[tA] ++ tNone :: [tDB], []⟩ ⟨[], ∅, ()⟩
      = some (some (Err.NoImplementationFound tNone),
          ⟨[⟨⟨tA, some 0⟩, none⟩], AList.singleton tA 0, ()⟩) ∧
    newDependencies demo RangeOrder.id 1 ⟨[tA] ++ tNone :: [tDB], []⟩ ()
      = some ⟨none, some (Err.NoImplementationFound tNone), [⟨⟨tA, some 0⟩, none⟩], ()⟩ ∧
    (AList.singleton tA 0 : dependencies).lookup tNone = none :=
  pool_failure_aborts demo RangeOrder.id 0 [tA] [tDB] [] tNone ()
    ⟨[⟨⟨tA, some 0⟩, none⟩], AList.singleton tA 0, ()⟩ (Err.NoImplementationFound tNone) ()
    rfl rfl rfl rfl rfl

/-- The loop step on an input resolved afresh whose type has an `Init` method that
`isValidInit` rejects: the loop returns the validation error right after `add`, whatever
the recursive call would do, which is not made. -/
theorem scanLoop_bad_init (env : Env ρ) (ord : RangeOrder)
    (self : reflect.Method → State ρ → Option (Option Err × State ρ))
    (t : RType) (rest : List RType) (s : State ρ) (v : reflect.Value) (pool1 : ρ)
    (init : reflect.Method) (err : Err)
    (hnot : (dependencies.vaueOf env ord s.heap s.ds t).1 = none)
    (hc : env.isContextType t = false) (hv : isValidDependencyType t = none)
    (hpool : env.valueOf s.pool t = (.ok v, pool1))
    (hi : env.MethodByNameInit v.typ = some init) (hb : env.isValidInit init = some err) :
    scanLoop env ord self (t :: rest) s = some (some err, s.added v pool1) := by
  rw [scanLoop]
  rcases vaueOf_cases env ord s.heap s.ds t with ⟨d, -, h⟩ | ⟨e, -, -, h⟩ | ⟨-, -, h⟩
  · rw [h] at hnot; simp at hnot
  · rw [h] at hnot; simp at hnot
  · rw [h]
    simp [hc, newDependency, hv, hpool, hi, hb, State.added, dependencies.add]

/-- A record created during a run whose type has an `Init` method that `isValidInit`
rejects ends the run: the run returns that validation error and the record is the last
one created. -/
theorem Scan.rejected_init (env : Env ρ) (ord : RangeOrder)
    {ins : List RType} {s : State ρ} {r : Option Err} {s1 : State ρ}
    (h : Scan env ord ins s r s1) :
    ∀ p d init err, s.heap.length ≤ p → s1.heap.get? p = some d →
      env.MethodByNameInit d.Value.typ = some init → env.isValidInit init = some err →
      r = some err ∧ s1.heap.length = p + 1 := by
  induction h with
  | done s =>
    intro p d init err hp hd _ _
    have : p < s.heap.length := by
      rw [List.get?_eq_getElem?] at hd
      exact (List.getElem?_eq_some_iff.mp hd).1
    omega
  | hit s t rest d r s1 hl _ ih => exact ih
  | reindex s t rest e r s1 hl hf _ ih => exact ih
  | context s t rest r s1 hl hf hc _ ih => exact ih
  | invalid s t rest err hl hf hc hv =>
    intro p d init err hp hd _ _
    have : p < s.heap.length := by
      rw [List.get?_eq_getElem?] at hd
      exact (List.getElem?_eq_some_iff.mp hd).1
    omega
  | poolError s t rest err pool1 hl hf hc hv hp =>
    intro p d init err hp hd _ _
    have : p < s.heap.length := by
      simp only [List.get?_eq_getElem?] at hd
      exact (List.getElem?_eq_some_iff.mp hd).1
    omega
  | noInit s t rest v pool1 r s1 hl hf hc hv hp hi hrest ih =>
    intro p d init err hpl hd hdi hde
    by_cases hpe : p = s.heap.length
    · subst hpe
      obtain ⟨y, hy, hyv⟩ := Scan.value_kept env ord s.heap.length v hrest
        ⟨⟨v, none⟩, by simp [State.added], rfl⟩
      rw [hd] at hy
      simp only [Option.some.injEq] at hy
      subst hy
      rw [hyv, hi] at hdi
      simp at hdi
    · exact ih p d init err
        (by simp only [State.added, List.length_append, List.length_singleton]; omega)
        hd hdi hde
  | badInit s t rest v pool1 init0 err0 hl hf hc hv hp hi hb =>
    intro p d init err hpl hd hdi hde
    have hlt : p < s.heap.length + 1 := by
      rw [List.get?_eq_getElem?] at hd
      have := (List.getElem?_eq_some_iff.mp hd).1
      simpa [State.added] using this
    have hpe : p = s.heap.length := by omega
    subst hpe
    simp [State.added] at hd
    rw [← hd] at hdi
    simp only at hdi
    rw [hi] at hdi
    simp only [Option.some.injEq] at hdi
    subst hdi
    rw [hb] at hde
    simp only [Option.some.injEq] at hde
    subst hde
    exact ⟨rfl, by simp [State.added]⟩
  | initError s t rest v pool1 init0 err0 s2 hl hf hc hv hp hi hb hinit ih =>
    intro p d init err hpl hd hdi hde
    by_cases hpe : p = s.heap.length
    · subst hpe
      obtain ⟨y, hy, hyv⟩ := Scan.value_kept env ord s.heap.length v hinit
        ⟨⟨v, none⟩, by simp [State.added], rfl⟩
      rw [hd] at hy
      simp only [Option.some.injEq] at hy
      subst hy
      rw [hyv, hi] at hdi
      simp only [Option.some.injEq] at hdi
      subst hdi
      rw [hb] at hde
      simp at hde
    · exact ih p d init err
        (by simp only [State.added, List.length_append, List.length_singleton]; omega)
        hd hdi hde
  | initDone s t rest v pool1 init0 s2 r s1 hl hf hc hv hp hi hb hinit hrest ih1 ih2 =>
    intro p d init err hpl hd hdi hde
    have hlen1 := Scan.heap_length env ord hinit
    simp only [State.added, List.length_append, List.length_singleton] at hlen1
    by_cases hpe : p = s.heap.length
    · subst hpe
      obtain ⟨y, hy, hyv⟩ := Scan.value_kept env ord s.heap.length v hinit
        ⟨⟨v, none⟩, by simp [State.added], rfl⟩
      obtain ⟨z, hz, hzv⟩ := setMethod_get_some s2.heap s.heap.length init0 _ y hy
      obtain ⟨w, hw, hwv⟩ := Scan.value_kept env ord s.heap.length v hrest
        ⟨z, hz, by rw [hzv]; exact hyv⟩
      rw [hd] at hw
      simp only [Option.some.injEq] at hw
      subst hw
      rw [hwv, hi] at hdi
      simp only [Option.some.injEq] at hdi
      subst hdi
      rw [hb] at hde
      simp at hde
    · by_cases hp2 : p < s2.heap.length
      · have hx : ∃ x, s2.heap.get? p = some x := by
          rw [List.get?_eq_getElem?]
          exact ⟨s2.heap[p], List.getElem?_eq_getElem hp2⟩
        obtain ⟨x, hx⟩ := hx
        obtain ⟨z, hz, hzv⟩ := setMethod_get_some s2.heap s.heap.length init0 p x hx
        obtain ⟨w, hw, hwv⟩ := Scan.value_kept env ord p x.Value hrest ⟨z, hz, hzv⟩
        rw [hd] at hw
        simp only [Option.some.injEq] at hw
        subst hw
        have := ih1 p x init err
          (by simp only [State.added, List.length_append, List.length_singleton]; omega)
          hx (by rw [← hwv]; exact hdi) hde
        simp at this
      · exact ih2 p d init err
          (by simp only [setMethod, List.length_modify]; omega) hd hdi hde

/-- C12. Invalid initializer aborts the build. When the scan resolves afresh a
dependency whose type has an `Init` method that `isValidInit` rejects, the loop returns
the validation error right after `add`, without the recursive call on the `Init` (its
inputs are not scanned). A record with a rejected `Init` in the heap of a build means
that `newDependencies` returned no graph and that validation error, the record being the
last one created. Consequently every entry of a successfully built graph whose type has
an `Init` method has one that `isValidInit` accepts. -/
theorem invalid_init_aborts (env : Env ρ) (ord : RangeOrder) :
    (∀ (self : reflect.Method → State ρ → Option (Option Err × State ρ)) t rest
        (s : State ρ) v pool1 init err,
        (dependencies.vaueOf env ord s.heap s.ds t).1 = none →
        env.isContextType t = false → isValidDependencyType t = none →
        env.valueOf s.pool t = (.ok v, pool1) →
        env.MethodByNameInit v.typ = some init → env.isValidInit init = some err →
        scanLoop env ord self (t :: rest) s = some (some err, s.added v pool1)) ∧
    (∀ fuel m r b p d init err, newDependencies env ord fuel m r = some b →
        b.heap.get? p = some d → env.MethodByNameInit d.Value.typ = some init →
        env.isValidInit init = some err →
        b.graph = none ∧ b.err = some err ∧ b.heap.length = p + 1) ∧
    ∀ fuel m r b g, newDependencies env ord fuel m r = some b → b.graph = some g →
      ∀ k p d init, g.lookup k = some p → b.heap.get? p = some d →
        env.MethodByNameInit d.Value.typ = some init → env.isValidInit init = none := by
  have hglobal : ∀ fuel m r b p d init err, newDependencies env ord fuel m r = some b →
      b.heap.get? p = some d → env.MethodByNameInit d.Value.typ = some init →
      env.isValidInit init = some err →
      b.graph = none ∧ b.err = some err ∧ b.heap.length = p + 1 := by
    intro fuel m r b p d init err hb hd hdi hde
    rcases newDependencies_cases env ord fuel m r b hb with ⟨s, hs, rfl⟩ | ⟨e, s, hs, rfl⟩
    · have := (Scan.rejected_init env ord hs p d init err (Nat.zero_le _) hd hdi hde).1
      simp at this
    · obtain ⟨h1, h2⟩ := Scan.rejected_init env ord hs p d init err (Nat.zero_le _) hd hdi hde
      exact ⟨rfl, by simpa using h1, h2⟩
  refine ⟨?_, hglobal, ?_⟩
  · intro self t rest s v pool1 init err hnot hc hv hpool hi hb
    exact scanLoop_bad_init env ord self t rest s v pool1 init err hnot hc hv hpool hi hb
  · intro fuel m r b g hb hg k p d init _ hd hdi
    cases hvi : env.isValidInit init with
    | none => rfl
    | some err =>
      have := (hglobal fuel m r b p d init err hb hd hdi hvi).1
      rw [hg] at this
      simp at this

/-- Witness for C12: with an `isValidInit` that rejects the `Init` of `*Cfg`, the build
of `f(a *A, c *Cfg, db *DB)` returns the validation error after creating the record of
`*Cfg`; the `Init` input `*DB` and the later parameter are not resolved. -/
theorem invalid_init_aborts_witness :
    newDependencies strict RangeOrder.id 1 ⟨[tA, tCfg, tDB], []⟩ ()
      = some ⟨none, some Err.InvalidInitializerSignature,
          [⟨⟨tA, some 0⟩, none⟩, ⟨⟨tCfg, some 0⟩, none⟩], ()⟩ ∧
    (none : Option dependencies) = none ∧
    some Err.InvalidInitializerSignature = some Err.InvalidInitializerSignature ∧
    [(⟨⟨tA, some 0⟩, none⟩ : dependency), ⟨⟨tCfg, some 0⟩, none⟩].length = 1 + 1 :=
  ⟨rfl, (invalid_init_aborts strict RangeOrder.id).2.1 1 ⟨[tA, tCfg, tDB], []⟩ ()
    ⟨none, some Err.InvalidInitializerSignature,
      [⟨⟨tA, some 0⟩, none⟩, ⟨⟨tCfg, some 0⟩, none⟩], ()⟩ 1 ⟨⟨tCfg, some 0⟩, none⟩ initCfg
    Err.InvalidInitializerSignature rfl rfl rfl rfl⟩

/-- The pool of the example program `counting` is well behaved. -/
theorem counting_wellBehaved : WellBehaved counting := by
  intro r t v r1 h
  cases t with
  | iface n =>
    cases n with
    | zero =>
      simp only [counting, Prod.mk.injEq, Except.ok.injEq] at h
      rw [← h.1]
      exact ⟨fun hk => by simp [RType.Kind] at hk, fun _ => by decide⟩
    | succ n => simp [counting] at h
  | prim n =>
    simp only [counting, Prod.mk.injEq, Except.ok.injEq] at h
    rw [← h.1]; exact ⟨fun _ => rfl, fun hk => by simp [RType.Kind] at hk⟩
  | struct n k =>
    simp only [counting, Prod.mk.injEq, Except.ok.injEq] at h
    rw [← h.1]; exact ⟨fun _ => rfl, fun hk => by simp [RType.Kind] at hk⟩
  | slice e =>
    simp only [counting, Prod.mk.injEq, Except.ok.injEq] at h
    rw [← h.1]; exact ⟨fun _ => rfl, fun hk => by simp [RType.Kind] at hk⟩
  | ptr e =>
    simp only [counting, Prod.mk.injEq, Except.ok.injEq] at h
    rw [← h.1]; exact ⟨fun _ => rfl, fun hk => by simp [RType.Kind] at hk⟩
  | func n =>
    simp only [counting, Prod.mk.injEq, Except.ok.injEq] at h
    rw [← h.1]; exact ⟨fun _ => rfl, fun hk => by simp [RType.Kind] at hk⟩

/-- C13. Template shape invariant: the code breaks this. `newDependency` applies
`isValidDependencyType` to the requested type only and stores whatever value the pool
returns. For `f(b B)`, with the pool member implementing the interface `B` being a
`*Count`, a pointer to a named integer, the build succeeds with an entry whose `Value`
has the type `*Count`, neither a pointer to a struct nor a pointer to a slice of structs
as the comment of the field says. Requested directly, as in `f(x *Count)`, the same type
is rejected with `InvalidDependencyType`. The pool is well behaved. -/
theorem template_shape_broken :
    WellBehaved counting ∧
    templateShape tCount = false ∧
    (newDependencies counting RangeOrder.id 1 ⟨[tB], []⟩ ()).map
      (fun b => (b.graph.map (fun g => g.entries), b.err, b.heap))
      = some (some [⟨tCount, 0⟩], none, [⟨⟨tCount, some 1⟩, none⟩]) ∧
    newDependencies counting RangeOrder.id 1 ⟨[tCount], []⟩ ()
      = some ⟨none, some (Err.InvalidDependencyType tCount), [], ()⟩ :=
  ⟨counting_wellBehaved, by decide, by decide, by rfl⟩

/-- The loop step on an input resolved afresh whose type has an `Init` method that
`isValidInit` accepts: the recursive call is made from the state right after `add`. -/
theorem scanLoop_recursive_call (env : Env ρ) (ord : RangeOrder)
    (self : reflect.Method → State ρ → Option (Option Err × State ρ))
    (t : RType) (rest : List RType) (s : State ρ) (v : reflect.Value) (pool1 : ρ)
    (init : reflect.Method)
    (hnot : (dependencies.vaueOf env ord s.heap s.ds t).1 = none)
    (hc : env.isContextType t = false) (hv : isValidDependencyType t = none)
    (hpool : env.valueOf s.pool t = (.ok v, pool1))
    (hi : env.MethodByNameInit v.typ = some init) (hb : env.isValidInit init = none) :
    scanLoop env ord self (t :: rest) s =
      match self init (s.added v pool1) with
      | none => none
      | some (some err, s2) => some (some err, s2)
      | some (none, s2) =>
        scanLoop env ord self rest { s2 with heap := setMethod s2.heap s.heap.length init } := by
  rw [scanLoop]
  rcases vaueOf_cases env ord s.heap s.ds t with ⟨d, -, h⟩ | ⟨e, -, -, h⟩ | ⟨-, -, h⟩
  · rw [h] at hnot; simp at hnot
  · rw [h] at hnot; simp at hnot
  · rw [h]
    simp only [hc, newDependency, hv, hpool, add_fresh, init_fresh, hi, hb, State.added]
    simp

/-- What `vaueOf` returning `(nil, false)` means: the type is not a key and no pair of
the map passes `isType`. -/
theorem vaueOf_none (env : Env ρ) (ord : RangeOrder) (heap : List dependency)
    (ds : dependencies) (t : RType) (h : (dependencies.vaueOf env ord heap ds t).1 = none) :
    ds.lookup t = none ∧ (∀ e ∈ ds.entries, isTypeAt env heap t e = false) ∧
      dependencies.vaueOf env ord heap ds t = (none, ds) := by
  rcases vaueOf_cases env ord heap ds t with ⟨d, -, h1⟩ | ⟨e, -, -, h1⟩ | ⟨hl, hf, h1⟩
  · rw [h1] at h; simp at h
  · rw [h1] at h; simp at h
  · exact ⟨hl, find_none_spec env ord heap ds t hf, h1⟩

/-- C14. Termination on cyclic and self-referential initializers. With a well-behaved
pool over a universe `U` of types, `scanDependencies` returns from every state for every
method with inputs in `U`: every large enough fuel gives the same result. The recursive
call is made from the state right after `add` stored a record resolved afresh, and in
that state strictly fewer types of `U` are without a record of their own in the map. -/
theorem scan_terminates (env : Env ρ) (ord : RangeOrder) (hwb : WellBehaved env)
    (U : List RType) (hU : Universe env U) :
    (∀ (m : reflect.Method), (∀ T ∈ m.ins, T ∈ U) → ∀ s : State ρ,
      ∃ n res, ∀ fuel, n ≤ fuel → scanDependencies env ord fuel m s = some res) ∧
    (∀ (s : State ρ) t v pool1, t ∈ U →
      (dependencies.vaueOf env ord s.heap s.ds t).1 = none →
      isValidDependencyType t = none → env.valueOf s.pool t = (.ok v, pool1) →
      pending U (s.added v pool1) < pending U s) ∧
    ∀ (self : reflect.Method → State ρ → Option (Option Err × State ρ)) t rest
      (s : State ρ) v pool1 init,
      (dependencies.vaueOf env ord s.heap s.ds t).1 = none →
      env.isContextType t = false → isValidDependencyType t = none →
      env.valueOf s.pool t = (.ok v, pool1) →
      env.MethodByNameInit v.typ = some init → env.isValidInit init = none →
      scanLoop env ord self (t :: rest) s =
        match self init (s.added v pool1) with
        | none => none
        | some (some err, s2) => some (some err, s2)
        | some (none, s2) =>
          scanLoop env ord self rest
            { s2 with heap := setMethod s2.heap s.heap.length init } := by
  refine ⟨?_, ?_, ?_⟩
  · intro m hm s
    obtain ⟨e, s1, hscan, -⟩ :=
      scan_total env ord hwb U hU (pending U s) m.ins hm s (Nat.le_refl _)
    obtain ⟨n, hn⟩ := scanLoop_complete env ord hscan
    refine ⟨n + 1, (e, s1), ?_⟩
    intro fuel hfuel
    obtain ⟨k, rfl⟩ : ∃ k, fuel = k + 1 := ⟨fuel - 1, by omega⟩
    rw [scanDependencies]
    exact hn k (by omega)
  · intro s t v pool1 htU hnot hv hpool
    obtain ⟨hl, hno, -⟩ := vaueOf_none env ord s.heap s.ds t hnot
    exact pending_lt U s _ (fun c => ownAt_added_mono c s v pool1) v.typ
      (hU.pool s.pool t v pool1 htU hpool)
      (fresh_not_owned env hwb s t v pool1 hl hno hv hpool) (ownAt_added s v pool1)
  · intro self t rest s v pool1 init hnot hc hv hpool hi hb
    exact scanLoop_recursive_call env ord self t rest s v pool1 init hnot hc hv hpool hi hb

/-- The types `*Cfg` and `*DB` form a universe of the example program `cyclic`. -/
theorem cyclic_universe : Universe cyclic [tCfg, tDB] := by
  constructor
  · intro r t v r1 ht h
    exact demo_universe.pool r t v r1 ht h
  · intro c hc init hi T hT
    simp only [List.mem_cons, List.mem_singleton, List.not_mem_nil, or_false] at hc
    rcases hc with rfl | rfl
    · have : init = ⟨[tCfg, tDB], []⟩ := by
        simpa [cyclic] using hi.symm
      subst this
      simpa using hT
    · have : init = ⟨[tDB, tCfg], []⟩ := by
        simpa [cyclic, tDB, tCfg] using hi.symm
      subst this
      simp only [List.mem_cons, List.mem_singleton, List.not_mem_nil, or_false] at hT ⊢
      exact hT.symm

/-- Witness for C14: the `Init` methods of `*Cfg` and `*DB` take their receiver and
require each other; the scan of `f(c *Cfg)` returns, with both records initialised. -/
theorem scan_terminates_witness :
    (∃ n res, ∀ fuel, n ≤ fuel →
      scanDependencies cyclic RangeOrder.id fuel ⟨[tCfg], []⟩ ⟨[], ∅, ()⟩ = some res) ∧
    (scanDependencies cyclic RangeOrder.id 3 ⟨[tCfg], []⟩ ⟨[], ∅, ()⟩).map
      (fun x => (x.1, x.2.ds.entries, x.2.heap.map (fun d => d.Method.isSome)))
      = some (none, [⟨tDB, 1⟩, ⟨tCfg, 0⟩], [true, true]) :=
  ⟨(scan_terminates cyclic RangeOrder.id demo_wellBehaved [tCfg, tDB] cyclic_universe).1
      ⟨[tCfg], []⟩ (by simp) ⟨[], ∅, ()⟩,
    by rfl⟩

/-- The outcome of `vaueOf` is the same for two enumeration orders when all pairs of the
map that pass `isType` hold the same pointer. -/
theorem vaueOf_order (env : Env ρ) (ord1 ord2 : RangeOrder) (heap : List dependency)
    (ds : dependencies) (t : RType)
    (huniq : ∀ e1 e2, e1 ∈ ds.entries → e2 ∈ ds.entries → isTypeAt env heap t e1 = true →
      isTypeAt env heap t e2 = true → e1.2 = e2.2) :
    dependencies.vaueOf env ord1 heap ds t = dependencies.vaueOf env ord2 heap ds t := by
  rcases vaueOf_cases env ord1 heap ds t with ⟨d, hl, h1⟩ | ⟨e1, hl, hf1, h1⟩ | ⟨hl, hf1, h1⟩
  · rcases vaueOf_cases env ord2 heap ds t with ⟨d2, hl2, h2⟩ | ⟨e2, hl2, -, -⟩ | ⟨hl2, -, -⟩
    · rw [h1, h2]
      rw [hl] at hl2
      simp only [Option.some.injEq] at hl2
      rw [hl2]
    · rw [hl] at hl2; simp at hl2
    · rw [hl] at hl2; simp at hl2
  · rcases vaueOf_cases env ord2 heap ds t with ⟨d2, hl2, -⟩ | ⟨e2, -, hf2, h2⟩ | ⟨-, hf2, -⟩
    · rw [hl] at hl2; simp at hl2
    · obtain ⟨hm1, ht1⟩ := find_some_spec env ord1 heap ds t e1 hf1
      obtain ⟨hm2, ht2⟩ := find_some_spec env ord2 heap ds t e2 hf2
      rw [h1, h2, huniq e1 e2 hm1 hm2 ht1 ht2]
    · obtain ⟨hm1, ht1⟩ := find_some_spec env ord1 heap ds t e1 hf1
      have := find_none_spec env ord2 heap ds t hf2 e1 hm1
      rw [ht1] at this; simp at this
  · rcases vaueOf_cases env ord2 heap ds t with ⟨d2, hl2, -⟩ | ⟨e2, -, hf2, -⟩ | ⟨-, -, h2⟩
    · rw [hl] at hl2; simp at hl2
    · obtain ⟨hm2, ht2⟩ := find_some_spec env ord2 heap ds t e2 hf2
      have := find_none_spec env ord1 heap ds t hf1 e2 hm2
      rw [ht2] at this; simp at this
    · rw [h1, h2]

/-- C15, as stated, fails: in the graph of `f(a *Impl, b *W, c B)`, where both `*Impl`
and `*W` implement the interface `B`, `vaueOf(B)` returns and registers the record of
`*W` when the map is enumerated in one order and the record of `*Impl` in the reverse
order; the built graphs differ at the key `B`. -/
theorem order_independence_counterexample :
    (dependencies.vaueOf twoImpl RangeOrder.id
        [⟨⟨tImpl, some 0⟩, none⟩, ⟨⟨tW, some 0⟩, none⟩]
        ((AList.singleton tImpl 0).insert tW 1) tB).1 = some 1 ∧
    (dependencies.vaueOf twoImpl RangeOrder.rev
        [⟨⟨tImpl, some 0⟩, none⟩, ⟨⟨tW, some 0⟩, none⟩]
        ((AList.singleton tImpl 0).insert tW 1) tB).1 = some 0 ∧
    (newDependencies twoImpl RangeOrder.id 1 ⟨[tImpl, tW, tB], []⟩ ()).map
      (fun b => b.graph.map (fun g => g.lookup tB)) = some (some (some 1)) ∧
    (newDependencies twoImpl RangeOrder.rev 1 ⟨[tImpl, tW, tB], []⟩ ()).map
      (fun b => b.graph.map (fun g => g.lookup tB)) = some (some (some 0)) :=
  ⟨by rfl, by rfl, by rfl, by rfl⟩

/-- The test `isType` reads only the `Value` of a record. -/
theorem isType_value (env : Env ρ) (x y : dependency) (t : RType) (h : y.Value = x.Value) :
    y.isType env t = x.isType env t := by
  simp [dependency.isType, h]

/-- Every reachable map binds each key to a record that satisfies it. -/
theorem Reachable.satisfied (env : Env ρ) {heap : List dependency} {ds : dependencies}
    (h : Reachable env heap ds) :
    ∀ k p, ds.lookup k = some p →
      ∃ d, heap.get? p = some d ∧ (d.Value.typ = k ∨ d.isType env k = true) := by
  induction h with
  | empty heap => intro k p hk; simp at hk
  | alloc heap ds x _ ih =>
    intro k p hk
    obtain ⟨d, hd, hsat⟩ := ih k p hk
    exact ⟨d, get_append_old heap x p d hd, hsat⟩
  | add heap ds d dep _ hd ih =>
    intro k p hk
    simp only [dependencies.add, hd] at hk
    by_cases hkt : k = dep.Value.typ
    · subst hkt
      simp only [AList.lookup_insert, Option.some.injEq] at hk
      subst hk
      exact ⟨dep, hd, Or.inl rfl⟩
    · rw [AList.lookup_insert_ne hkt] at hk
      exact ih k p hk
  | vaueOf heap ds ord t _ ih =>
    intro k p hk
    rcases vaueOf_cases env ord heap ds t with ⟨d, -, hv⟩ | ⟨e, -, hf, hv⟩ | ⟨-, -, hv⟩
    · rw [hv] at hk; exact ih k p hk
    · rw [hv] at hk
      simp only at hk
      by_cases hkt : k = t
      · subst hkt
        simp only [AList.lookup_insert, Option.some.injEq] at hk
        subst hk
        have hty := (find_some_spec env ord heap ds k e hf).2
        unfold isTypeAt at hty
        cases hd : heap.get? e.2 with
        | none => rw [hd] at hty; simp at hty
        | some d =>
          rw [hd] at hty
          exact ⟨d, rfl, Or.inr hty⟩
      · rw [AList.lookup_insert_ne hkt] at hk
        exact ih k p hk
    · rw [hv] at hk; exact ih k p hk
  | setMethod heap ds d init _ ih =>
    intro k p hk
    obtain ⟨x, hx, hsat⟩ := ih k p hk
    obtain ⟨y, hy, hv⟩ := setMethod_get_some heap d init p x hx
    refine ⟨y, hy, ?_⟩
    rcases hsat with h1 | h1
    · exact Or.inl (by rw [hv]; exact h1)
    · exact Or.inr (by rw [isType_value env x y k hv]; exact h1)

/-- C16. Every key is satisfied by its entry: in every graph reachable from the empty
graph by calls to `add` and `vaueOf`, in every graph `scanDependencies` leaves when it
started from such a graph, and in every graph `newDependencies` returns, each key `k` is
bound to a record `d` with `d.Value.Type() = k` or `d.isType(k)`. -/
theorem key_satisfied (env : Env ρ) :
    (∀ heap ds, Reachable env heap ds → ∀ k p, ds.lookup k = some p →
      ∃ d, heap.get? p = some d ∧ (d.Value.typ = k ∨ d.isType env k = true)) ∧
    (∀ ord fuel m (s : State ρ) r s1, KeySatisfied env s →
      scanDependencies env ord fuel m s = some (r, s1) → KeySatisfied env s1) ∧
    ∀ ord fuel m (r : ρ) b g, newDependencies env ord fuel m r = some b →
      b.graph = some g → ∀ k p, g.lookup k = some p →
        ∃ d, b.heap.get? p = some d ∧ (d.Value.typ = k ∨ d.isType env k = true) := by
  refine ⟨?_, ?_, ?_⟩
  · intro heap ds h
    exact Reachable.satisfied env h
  · intro ord fuel m s r s1 hs h
    exact Scan.keySatisfied env ord (scan_sound env ord fuel m s r s1 h) hs
  · intro ord fuel m r b g hb hg k p hk
    have hscan := (newDependencies_ok env ord fuel m r b g hb hg).1
    exact Scan.keySatisfied env ord hscan (keySatisfied_empty env r) k p hk

/-- Witness for C16: the map reached by allocating a record of type `*Impl`, `add` and
`vaueOf(B)` binds `B` to that record, which passes `isType(B)`. -/
theorem key_satisfied_witness :
    Reachable demo [⟨⟨tImpl, some 1⟩, none⟩]
      (dependencies.vaueOf demo RangeOrder.id [⟨⟨tImpl, some 1⟩, none⟩]
        (dependencies.add [⟨⟨tImpl, some 1⟩, none⟩] ∅ 0) tB).2 ∧
    ∃ d, [(⟨⟨tImpl, some 1⟩, none⟩ : dependency)].get? 0 = some d ∧
      (d.Value.typ = tB ∨ d.isType demo tB = true) :=
  have hreach : Reachable demo [⟨⟨tImpl, some 1⟩, none⟩]
      (dependencies.vaueOf demo RangeOrder.id [⟨⟨tImpl, some 1⟩, none⟩]
        (dependencies.add [⟨⟨tImpl, some 1⟩, none⟩] ∅ 0) tB).2 :=
    Reachable.vaueOf _ _ RangeOrder.id tB
      (Reachable.add _ _ 0 ⟨⟨tImpl, some 1⟩, none⟩
        (Reachable.alloc [] ∅ ⟨⟨tImpl, some 1⟩, none⟩ (Reachable.empty [])) rfl)
  ⟨hreach, (key_satisfied demo).1 _ _ hreach tB 0 (by decide)⟩

/-- C18. Frame of `vaueOf`: the call changes the map at most at the key `t`. Every other
key keeps its binding; when `t` was already a key the call returns its binding and the
map as it was; when the call returns `(nil, false)` the map is the one before the call;
a pointer it returns is bound to `t` afterwards. The call only reads the records: the
loop of `scanDependencies` goes on after a successful call with the same heap and pool. -/
theorem vaueOf_frame (env : Env ρ) (ord : RangeOrder) (heap : List dependency)
    (ds : dependencies) (t : RType) :
    (∀ k, k ≠ t →
      (dependencies.vaueOf env ord heap ds t).2.lookup k = ds.lookup k) ∧
    (∀ p, ds.lookup t = some p → dependencies.vaueOf env ord heap ds t = (some p, ds)) ∧
    ((dependencies.vaueOf env ord heap ds t).1 = none →
      (dependencies.vaueOf env ord heap ds t).2 = ds) ∧
    (∀ p, (dependencies.vaueOf env ord heap ds t).1 = some p →
      (dependencies.vaueOf env ord heap ds t).2.lookup t = some p) ∧
    (∀ (self : reflect.Method → State ρ → Option (Option Err × State ρ))
      (rest : List RType) (pool : ρ) p,
      (dependencies.vaueOf env ord heap ds t).1 = some p →
      scanLoop env ord self (t :: rest) ⟨heap, ds, pool⟩
        = scanLoop env ord self rest
            ⟨heap, (dependencies.vaueOf env ord heap ds t).2, pool⟩) := by
  rcases vaueOf_cases env ord heap ds t with ⟨d, hl, hv⟩ | ⟨e, hl, hf, hv⟩ | ⟨hl, hf, hv⟩
  · refine ⟨?_, ?_, ?_, ?_, ?_⟩
    · intro k _; rw [hv]
    · intro p hp
      rw [hl] at hp
      simp only [Option.some.injEq] at hp
      rw [hv, hp]
    · intro _; rw [hv]
    · intro p hp
      rw [hv] at hp ⊢
      simp only [Option.some.injEq] at hp
      rw [← hp]; exact hl
    · intro self rest pool p _
      rw [scanLoop]
      simp only [hv]
  · refine ⟨?_, ?_, ?_, ?_, ?_⟩
    · intro k hk
      rw [hv]
      exact AList.lookup_insert_ne hk
    · intro p hp
      rw [hl] at hp; simp at hp
    · intro h
      rw [hv] at h; simp at h
    · intro p hp
      rw [hv] at hp ⊢
      simp only [Option.some.injEq] at hp
      rw [← hp]
      exact AList.lookup_insert ds
    · intro self rest pool p _
      rw [scanLoop]
      simp only [hv]
  · refine ⟨?_, ?_, ?_, ?_, ?_⟩
    · intro k _; rw [hv]
    · intro p hp
      rw [hl] at hp; simp at hp
    · intro _; rw [hv]
    · intro p hp
      rw [hv] at hp; simp at hp
    · intro self rest pool p hp
      rw [hv] at hp; simp at hp

/-- With a well-behaved pool and Go's method-set rule, a run from a map whose keys are
satisfied by their records rebinds no key, and leaves a map of that kind. -/
theorem Scan.bindings_kept (env : Env ρ) (ord : RangeOrder) (hwb : WellBehaved env)
    (hlaw : MethodSets env) (s0 : State ρ)
    {ins : List RType} {s : State ρ} {r : Option Err} {s1 : State ρ}
    (h : Scan env ord ins s r s1) :
    (KeySatisfied env s ∧ ∀ k p, s0.ds.lookup k = some p → s.ds.lookup k = some p) →
    (KeySatisfied env s1 ∧ ∀ k p, s0.ds.lookup k = some p → s1.ds.lookup k = some p) := by
  refine Scan.invariant env ord
    (fun s => KeySatisfied env s ∧ ∀ k p, s0.ds.lookup k = some p → s.ds.lookup k = some p)
    ?_ ?_ ?_ ?_ h
  · rintro s t e hl he hty ⟨hsat, hkeep⟩
    refine ⟨?_, ?_⟩
    · intro k p hk
      by_cases hkt : k = t
      · subst hkt
        simp only [AList.lookup_insert, Option.some.injEq] at hk
        subst hk
        unfold isTypeAt at hty
        cases hd : s.heap.get? e.2 with
        | none => rw [hd] at hty; simp at hty
        | some d =>
          rw [hd] at hty
          exact ⟨d, rfl, Or.inr hty⟩
      · simp only [AList.lookup_insert_ne hkt] at hk
        exact hsat k p hk
    · intro k p hk
      have hk1 := hkeep k p hk
      have hne : k ≠ t := by
        intro heq; rw [heq, hl] at hk1; simp at hk1
      simp only
      rw [AList.lookup_insert_ne hne]; exact hk1
  · rintro s t err pool1 - hp; exact hp
  · rintro s t v pool1 hl hno hc hv hpool ⟨hsat, hkeep⟩
    have hfresh : s.ds.lookup v.typ = none := by
      cases hq : s.ds.lookup v.typ with
      | none => rfl
      | some q =>
        exfalso
        obtain ⟨d, hd, hds⟩ := hsat v.typ q hq
        rcases hds with h1 | h1
        · exact fresh_not_owned env hwb s t v pool1 hl hno hv hpool ⟨q, d, hq, hd, h1⟩
        · rcases valid_kind t hv with hk | hk
          · have := (hwb s.pool t v pool1 hpool).1 hk
            rw [this, hl] at hq; simp at hq
          · have himp := (hwb s.pool t v pool1 hpool).2 hk
            have hdt := hlaw d v.typ t hk h1 himp
            have hmem : (⟨v.typ, q⟩ : Entry) ∈ s.ds.entries := AList.mem_lookup_iff.mp hq
            have := hno _ hmem
            unfold isTypeAt at this
            rw [hd] at this
            simp [dependency.isType, hk, hdt] at this
    refine ⟨?_, ?_⟩
    · intro k p hk
      simp only [State.added] at hk ⊢
      by_cases hkt : k = v.typ
      · subst hkt
        simp only [AList.lookup_insert, Option.some.injEq] at hk
        subst hk
        exact ⟨⟨v, none⟩, by simp, Or.inl rfl⟩
      · simp only [AList.lookup_insert_ne hkt] at hk
        obtain ⟨d, hd, hds⟩ := hsat k p hk
        exact ⟨d, get_append_old s.heap _ p d hd, hds⟩
    · intro k p hk
      have hk1 := hkeep k p hk
      have hne : k ≠ v.typ := by
        intro heq; rw [heq, hfresh] at hk1; simp at hk1
      simp only [State.added]
      rw [AList.lookup_insert_ne hne]; exact hk1
  · rintro s a init ⟨hsat, hkeep⟩
    refine ⟨?_, hkeep⟩
    intro k p hk
    obtain ⟨x, hx, hds⟩ := hsat k p hk
    obtain ⟨y, hy, hv⟩ := setMethod_get_some s.heap a init p x hx
    refine ⟨y, hy, ?_⟩
    rcases hds with h1 | h1
    · exact Or.inl (by rw [hv]; exact h1)
    · exact Or.inr (by rw [isType_value env x y k hv]; exact h1)

/-- The example program obeys the method-set rule. -/
theorem demo_methodSets : MethodSets demo := by
  intro d k t _ hty himp
  have hk : (k = tImpl ∧ t = tB) ∨ (k = tW ∧ t = tRW) := by
    simpa [demo] using himp
  rcases hk with ⟨rfl, rfl⟩ | ⟨rfl, rfl⟩
  · have : d.Value.typ = tImpl := by
      simpa [dependency.isType, tImpl, RType.Kind, demo] using hty
    rw [this]; decide
  · have : d.Value.typ = tW := by
      simpa [dependency.isType, tW, RType.Kind, demo] using hty
    rw [this]; decide

/-- C17. The graph only grows. The pool is well behaved, and `ds` is a graph of the kind
`scanDependencies` is called on: every key is bound to an entry that satisfies it (the
empty graph of `newDependencies`, and by C16 every graph built from it). Then, whether
`scanDependencies(m, r)` returns nil or an error, every key present before is a key
afterwards bound to the same `*dependency`, no entry's `Value` has changed, and the graph
is again of that kind, so nested scans and sibling parameters share one resolution
space. Go's method-set rule is used for the interface case of `isType`. -/
theorem graph_only_grows (env : Env ρ) (ord : RangeOrder) (hwb : WellBehaved env)
    (hlaw : MethodSets env) (fuel : Nat) (m : reflect.Method)
    (s : State ρ) (r : Option Err) (s1 : State ρ) (hsat : KeySatisfied env s)
    (hrun : scanDependencies env ord fuel m s = some (r, s1)) :
    (∀ k p, s.ds.lookup k = some p → s1.ds.lookup k = some p) ∧
    (∀ p d, s.heap.get? p = some d → ∃ d1, s1.heap.get? p = some d1 ∧ d1.Value = d.Value) ∧
    KeySatisfied env s1 := by
  have hscan := scan_sound env ord fuel m s r s1 hrun
  have hkept := Scan.bindings_kept env ord hwb hlaw s hscan ⟨hsat, fun _ _ h => h⟩
  refine ⟨hkept.2, ?_, hkept.1⟩
  intro p d hd
  exact Scan.value_kept env ord p d.Value hscan ⟨d, hd, rfl⟩

/-- Witness for C17: from the graph `*Impl ↦ 0`, `B ↦ 0` the scan of `f(a *A, x tNone)`
adds the record of `*A` and then fails on the pool; the keys `*Impl` and `B` are still
bound to the record at address 0. -/
theorem graph_only_grows_witness :
    scanDependencies demo RangeOrder.id 1 ⟨[tA, tNone], []⟩
        ⟨[⟨⟨tImpl, some 1⟩, none⟩], (AList.singleton tImpl 0).insert tB 0, ()⟩
      = some (some (Err.NoImplementationFound tNone),
          ⟨[⟨⟨tImpl, some 1⟩, none⟩, ⟨⟨tA, some 0⟩, none⟩],
            ((AList.singleton tImpl 0).insert tB 0).insert tA 1, ()⟩) ∧
    (((AList.singleton tImpl 0 : dependencies).insert tB 0).insert tA 1).lookup tImpl
      = some 0 ∧
    (((AList.singleton tImpl 0 : dependencies).insert tB 0).insert tA 1).lookup tB
      = some 0 :=
  have hsat : KeySatisfied demo
      (⟨[⟨⟨tImpl, some 1⟩, none⟩], (AList.singleton tImpl 0).insert tB 0, ()⟩ : State Unit) := by
    intro k p hk
    simp only at hk
    by_cases h1 : k = tB
    · subst h1
      simp only [AList.lookup_insert, Option.some.injEq] at hk
      subst hk
      exact ⟨⟨⟨tImpl, some 1⟩, none⟩, rfl, Or.inr (by decide)⟩
    · rw [AList.lookup_insert_ne h1] at hk
      by_cases h2 : k = tImpl
      · subst h2
        have hp : p = 0 := by
          rw [← AList.insert_empty, AList.lookup_insert] at hk
          simpa using hk.symm
        subst hp
        exact ⟨⟨⟨tImpl, some 1⟩, none⟩, rfl, Or.inl rfl⟩
      · rw [← AList.insert_empty, AList.lookup_insert_ne h2] at hk
        simp at hk
  have hkeep := (graph_only_grows demo RangeOrder.id demo_wellBehaved demo_methodSets 1
    ⟨[tA, tNone], []⟩
    ⟨[⟨⟨tImpl, some 1⟩, none⟩], (AList.singleton tImpl 0).insert tB 0, ()⟩
    (some (Err.NoImplementationFound tNone))
    ⟨[⟨⟨tImpl, some 1⟩, none⟩, ⟨⟨tA, some 0⟩, none⟩],
      ((AList.singleton tImpl 0).insert tB 0).insert tA 1, ()⟩ hsat rfl).1
  ⟨rfl, hkeep tImpl 0 (by decide), hkeep tB 0 (by decide)⟩

/-- C15, amended. Which entry `vaueOf(t)` returns and registers, and the graph it leaves,
are the same for any two enumeration orders when `t` is already a key, when no pair of
the map passes `isType(t)`, or when all pairs that pass `isType(t)` hold the same
pointer; the last is so for every type `t` that is not an interface in a graph where
each record is also stored under its own type. For an interface that is not yet a key
and that two different stored records implement, the order decides. -/
theorem order_independence (env : Env ρ) (ord1 ord2 : RangeOrder) (heap : List dependency)
    (ds : dependencies) (t : RType) :
    ((∃ p, ds.lookup t = some p) →
      dependencies.vaueOf env ord1 heap ds t = dependencies.vaueOf env ord2 heap ds t) ∧
    ((∀ e ∈ ds.entries, isTypeAt env heap t e = false) →
      dependencies.vaueOf env ord1 heap ds t = dependencies.vaueOf env ord2 heap ds t) ∧
    ((∀ e1 e2, e1 ∈ ds.entries → e2 ∈ ds.entries → isTypeAt env heap t e1 = true →
        isTypeAt env heap t e2 = true → e1.2 = e2.2) →
      dependencies.vaueOf env ord1 heap ds t = dependencies.vaueOf env ord2 heap ds t) ∧
    (∀ pool : ρ, t.Kind ≠ Kind.Interface → OwnKeyed (⟨heap, ds, pool⟩ : State ρ) →
      dependencies.vaueOf env ord1 heap ds t = dependencies.vaueOf env ord2 heap ds t) := by
  refine ⟨?_, ?_, vaueOf_order env ord1 ord2 heap ds t, ?_⟩
  · rintro ⟨p, hp⟩
    simp only [dependencies.vaueOf, hp]
  · intro hno
    apply vaueOf_order
    intro e1 e2 hm1 _ ht1 _
    rw [hno e1 hm1] at ht1
    simp at ht1
  · intro pool hk hown
    apply vaueOf_order
    intro e1 e2 hm1 hm2 ht1 ht2
    have hl1 : ds.lookup e1.1 = some e1.2 := AList.mem_lookup_iff.mpr hm1
    have hl2 : ds.lookup e2.1 = some e2.2 := AList.mem_lookup_iff.mpr hm2
    obtain ⟨d1, hd1, ho1⟩ := hown e1.1 e1.2 hl1
    obtain ⟨d2, hd2, ho2⟩ := hown e2.1 e2.2 hl2
    simp only at hd1 hd2 ho1 ho2
    unfold isTypeAt at ht1 ht2
    rw [hd1] at ht1
    rw [hd2] at ht2
    simp only [dependency.isType, hk, if_false, decide_eq_true_eq] at ht1 ht2
    rw [ht1] at ho1
    rw [ht2, ho1] at ho2
    simpa using ho2

/-- Witness for C15 amended: in the graph of `f(a *Impl, b *W, c B)`, where both `*Impl`
and `*W` implement `B` and the two orders enumerate the pairs differently, `vaueOf(B)`
gives the same result in both orders once `B` is a key; and in the map
`*A ↦ 0`, `*Impl ↦ 1` of the example program, where only the record of `*Impl` passes
`isType(B)`, the two orders agree on the entry registered for `B`. -/
theorem order_independence_witness :
    RangeOrder.id.enum tB (((AList.singleton tImpl 0 : dependencies).insert tW 1).insert tB 1).entries
      ≠ RangeOrder.rev.enum tB
          (((AList.singleton tImpl 0 : dependencies).insert tW 1).insert tB 1).entries ∧
    dependencies.vaueOf twoImpl RangeOrder.id
        [⟨⟨tImpl, some 0⟩, none⟩, ⟨⟨tW, some 0⟩, none⟩]
        (((AList.singleton tImpl 0).insert tW 1).insert tB 1) tB
      = dependencies.vaueOf twoImpl RangeOrder.rev
        [⟨⟨tImpl, some 0⟩, none⟩, ⟨⟨tW, some 0⟩, none⟩]
        (((AList.singleton tImpl 0).insert tW 1).insert tB 1) tB ∧
    dependencies.vaueOf demo RangeOrder.id
        [⟨⟨tA, some 0⟩, none⟩, ⟨⟨tImpl, some 1⟩, none⟩]
        ((AList.singleton tA 0).insert tImpl 1) tB
      = dependencies.vaueOf demo RangeOrder.rev
        [⟨⟨tA, some 0⟩, none⟩, ⟨⟨tImpl, some 1⟩, none⟩]
        ((AList.singleton tA 0).insert tImpl 1) tB ∧
    (dependencies.vaueOf demo RangeOrder.rev
        [⟨⟨tA, some 0⟩, none⟩, ⟨⟨tImpl, some 1⟩, none⟩]
        ((AList.singleton tA 0).insert tImpl 1) tB).1 = some 1 :=
  ⟨by decide,
    (order_independence twoImpl RangeOrder.id RangeOrder.rev
      [⟨⟨tImpl, some 0⟩, none⟩, ⟨⟨tW, some 0⟩, none⟩]
      (((AList.singleton tImpl 0).insert tW 1).insert tB 1) tB).1 ⟨1, by decide⟩,
    (order_independence demo RangeOrder.id RangeOrder.rev
      [⟨⟨tA, some 0⟩, none⟩, ⟨⟨tImpl, some 1⟩, none⟩]
      ((AList.singleton tA 0).insert tImpl 1) tB).2.2.1 (by
        intro e1 e2 h1 h2 t1 t2
        have hent : ((AList.singleton tA 0 : dependencies).insert tImpl 1).entries
            = [⟨tImpl, 1⟩, ⟨tA, 0⟩] := by decide
        rw [hent] at h1 h2
        simp only [List.mem_cons, List.mem_singleton, List.not_mem_nil, or_false] at h1 h2
        rcases h1 with rfl | rfl
        · rcases h2 with rfl | rfl
          · rfl
          · exact absurd t2 (by decide)
        · exact absurd t1 (by decide)),
    by rfl⟩

end api
